import Mathlib

/-!
# Batch-level stock ledger of the pharmacy POS application

A shallow embedding of the stock-ledger core of the repository
(`mainproject.py`, `3.py`, `1.py`, `7.py`, `4.py`): the `batches`,
`sales`, `sale_items`, `sale_item_batches` and `returns` tables, the
FIFO sale-time deduction, the checkout loop, the stock-intake form and
the two return-processing revisions.

Modelling conventions:
* SQLite rows become structures; each table keeps its rows in insertion
  order and carries its own autoincrement counter (rowids start at 1).
* Quantities and prices are `Int` (Python integers; prices are inert in
  every claim, so their exact scale does not matter).
* `created_at` timestamps are `Nat` ordinals.
* `ORDER BY c ASC` is modelled by the stable `List.insertionSort` on
  the stored (insertion-ordered) rows.
* GUI-only concerns (dialogs, treeviews, receipt PDFs) and columns no
  claim touches (supplier, expiry, customer) are omitted; a
  `messagebox` warning or error that aborts a handler early is
  modelled by returning the database unchanged.
-/

namespace PharmacyPos

/-- One row of the `batches` table (`batch_no` is the lot label,
`created_at` the intake timestamp used as the FIFO/LIFO ordering key). -/
structure Batch where
  id : Nat
  productId : Nat
  batchNo : String
  quantity : Int
  costPrice : Int
  createdAt : Nat
deriving Repr, DecidableEq

/-- One row of the `sales` table (header). -/
structure Sale where
  id : Nat
  total : Int
deriving Repr, DecidableEq

/-- One row of the `sale_items` table.  `quantity` is decremented by
returns in the `mainproject.py` revision. -/
structure SaleItem where
  id : Nat
  saleId : Nat
  productId : Nat
  quantity : Int
  price : Int
deriving Repr, DecidableEq

/-- One row of the `sale_item_batches` junction table: an allocation of
`quantity` units of sale item `saleItemId` drawn from batch `batchId`. -/
structure SaleItemBatch where
  id : Nat
  saleItemId : Nat
  batchId : Nat
  quantity : Int
deriving Repr, DecidableEq

/-- One row of the `returns` table. -/
structure ReturnRow where
  id : Nat
  saleItemId : Nat
  quantity : Int
deriving Repr, DecidableEq

/-- The ledger-relevant part of the SQLite database.  Each list is kept
in rowid (insertion) order; the `next…Id` fields are the autoincrement
counters. -/
@[ext] structure DB where
  batches : List Batch
  sales : List Sale
  saleItems : List SaleItem
  saleItemBatches : List SaleItemBatch
  returns : List ReturnRow
  nextBatchId : Nat
  nextSaleId : Nat
  nextSaleItemId : Nat
  nextAllocId : Nat
  nextReturnId : Nat
deriving Repr, DecidableEq

/-- A fresh database (rowids start at 1, as in SQLite). -/
def emptyDB : DB := ⟨[], [], [], [], [], 1, 1, 1, 1, 1⟩

/-- `UPDATE batches SET quantity = quantity + delta WHERE id = bid`. -/
def updateBatchQty (bs : List Batch) (bid : Nat) (delta : Int) : List Batch :=
  bs.map fun b => if b.id = bid then { b with quantity := b.quantity + delta } else b

/-- `SELECT id, quantity FROM batches WHERE product_id=? AND quantity>0
ORDER BY created_at ASC` (the batch snapshot fetched at the top of
`_fifo_deduct_with_batch_tracking`). -/
def sortedLiveBatches (db : DB) (pid : Nat) : List Batch :=
  List.insertionSort (fun a b => a.createdAt ≤ b.createdAt)
    (db.batches.filter fun b => decide (b.productId = pid ∧ 0 < b.quantity))

/-- The `for b in batches:` loop of `_fifo_deduct_with_batch_tracking`
(`mainproject.py`): walk the fetched `(id, quantity)` snapshot, take
`min(remain, quantity)` from each batch, decrement the batch row,
insert a `sale_item_batches` row, until `remain <= 0` or the snapshot
is exhausted.  Returns the updated database and the final `remain`
(a positive value only triggers a warning dialog in the source). -/
def fifoLoop (sid : Nat) : DB → Int → List (Nat × Int) → DB × Int
  | db, remain, [] => (db, remain)
  | db, remain, (bid, bqty) :: rest =>
    if remain ≤ 0 then (db, remain)
    else
      let take := min remain bqty
      fifoLoop sid
        { db with
          batches := updateBatchQty db.batches bid (-take)
          saleItemBatches := db.saleItemBatches ++ [⟨db.nextAllocId, sid, bid, take⟩]
          nextAllocId := db.nextAllocId + 1 }
        (remain - take) rest

/-- `_fifo_deduct_with_batch_tracking(product_id, qty_needed,
sale_item_id, pname)` from `mainproject.py` (the same loop appears
inline in `3.py` and `4.py` checkout). -/
def fifoDeduct (db : DB) (productId : Nat) (qtyNeeded : Int) (saleItemId : Nat) :
    DB × Int :=
  fifoLoop saleItemId db qtyNeeded
    ((sortedLiveBatches db productId).map fun b => (b.id, b.quantity))

/-- One line of the POS cart. -/
structure CartLine where
  productId : Nat
  qty : Int
  price : Int
deriving Repr, DecidableEq

/-- `add_to_cart`: a line with `qty <= 0` is rejected with a warning
dialog and never enters the cart (the product-exists lookup is outside
the ledger model). -/
def addToCart (cart : List CartLine) (line : CartLine) : List CartLine :=
  if line.qty ≤ 0 then cart else cart ++ [line]

/-- One iteration of the checkout loop of `mainproject.py`: insert the
`sale_items` row for the cart line, then run the FIFO deduction for its
product and quantity. -/
def saleLineStep (sid : Nat) (acc : DB) (l : CartLine) : DB :=
  let itemId := acc.nextSaleItemId
  let acc1 := { acc with
    saleItems := acc.saleItems ++ [⟨itemId, sid, l.productId, l.qty, l.price⟩]
    nextSaleItemId := itemId + 1 }
  (fifoDeduct acc1 l.productId l.qty itemId).1

/-- `checkout` from `mainproject.py`: with a non-empty cart, insert the
`sales` header, then for each cart line insert a `sale_items` row and
run the FIFO deduction.  Every `db.execute` commits immediately; there
is no transaction around the whole loop and no rollback on shortage. -/
def checkout (db : DB) (cart : List CartLine) : DB :=
  if cart.isEmpty then db
  else
    let total := (cart.map fun l => l.qty * l.price).sum
    let sid := db.nextSaleId
    let db1 := { db with sales := db.sales ++ [⟨sid, total⟩], nextSaleId := sid + 1 }
    cart.foldl (saleLineStep sid) db1

/-- `SELECT * FROM sale_items WHERE id = siId` (the row behind the
selected line of the returns treeview). -/
def findSaleItem (db : DB) (siId : Nat) : Option SaleItem :=
  db.saleItems.find? fun si => si.id == siId

/-- `SELECT sib.batch_id, sib.quantity FROM sale_item_batches sib
WHERE sib.sale_item_id = ? ORDER BY sib.id ASC`. -/
def allocsForItem (db : DB) (siId : Nat) : List SaleItemBatch :=
  List.insertionSort (fun a b => a.id ≤ b.id)
    (db.saleItemBatches.filter fun a => a.saleItemId == siId)

/-- The restock loop of `_process_return` (`mainproject.py`, `7.py`):
walk the sale item's allocations, give back
`give_back = min(remain, allocation.quantity)` to each allocation's
batch until `remain <= 0` or the allocations run out. -/
def returnRestockLoop : DB → Int → List SaleItemBatch → DB
  | db, _, [] => db
  | db, remain, a :: rest =>
    if remain ≤ 0 then db
    else
      let giveBack := min remain a.quantity
      returnRestockLoop
        { db with batches := updateBatchQty db.batches a.batchId giveBack }
        (remain - giveBack) rest

/-- `_process_return` from `mainproject.py` (identical in `7.py`):
reject unless `0 < return_qty ≤` the sale item's current quantity;
otherwise insert the `returns` row, restock the batches the original
sale drew from, and decrement `sale_items.quantity`. -/
def processReturnMain (db : DB) (siId : Nat) (returnQty : Int) : DB :=
  match findSaleItem db siId with
  | none => db
  | some si =>
    if returnQty ≤ 0 ∨ si.quantity < returnQty then db
    else
      let db1 := { db with
        returns := db.returns ++ [⟨db.nextReturnId, siId, returnQty⟩]
        nextReturnId := db.nextReturnId + 1 }
      let db2 := returnRestockLoop db1 returnQty (allocsForItem db1 siId)
      { db2 with saleItems := db2.saleItems.map fun s =>
          if s.id = siId then { s with quantity := s.quantity - returnQty } else s }

/-- `SELECT id FROM batches WHERE product_id=? ORDER BY created_at DESC
LIMIT 1` (the LIFO restock target of `3.py`). -/
def mostRecentBatch (db : DB) (pid : Nat) : Option Batch :=
  (List.insertionSort (fun a b => b.createdAt ≤ a.createdAt)
    (db.batches.filter fun b => b.productId == pid)).head?

/-- `process_return` from `3.py` (`ReturnTab`): reject only when
`qty <= 0`; otherwise insert the `returns` row and restock the most
recently received batch of the item's product, or create a synthetic
`'RETURN'` batch (cost 0, `created_at` now) when the product has no
batch row at all.  `sale_items.quantity` is not touched. -/
def processReturnV3 (db : DB) (siId : Nat) (qty : Int) (now : Nat) : DB :=
  match findSaleItem db siId with
  | none => db
  | some si =>
    if qty ≤ 0 then db
    else
      let db1 := { db with
        returns := db.returns ++ [⟨db.nextReturnId, siId, qty⟩]
        nextReturnId := db.nextReturnId + 1 }
      match mostRecentBatch db1 si.productId with
      | some b => { db1 with batches := updateBatchQty db1.batches b.id qty }
      | none => { db1 with
          batches := db1.batches ++ [⟨db1.nextBatchId, si.productId, "RETURN", qty, 0, now⟩]
          nextBatchId := db1.nextBatchId + 1 }

/-- `BatchesTab.add_item` from `3.py` / `1.py` (stock intake): reject
with an error dialog when `qty <= 0`, otherwise insert exactly one new
`batches` row with the given quantity. -/
def addItem (db : DB) (pid : Nat) (batchNo : String) (qty : Int) (cost : Int)
    (now : Nat) : DB :=
  if qty ≤ 0 then db
  else { db with
    batches := db.batches ++ [⟨db.nextBatchId, pid, batchNo, qty, cost, now⟩]
    nextBatchId := db.nextBatchId + 1 }

/-- The ledger-mutating operations reachable from the UI. -/
inductive Op where
  | intake (pid : Nat) (batchNo : String) (qty : Int) (cost : Int) (now : Nat)
  | sale (lines : List CartLine)
  | retMain (siId : Nat) (qty : Int)
  | retV3 (siId : Nat) (qty : Int) (now : Nat)
deriving Repr, DecidableEq

/-- Apply one UI operation.  A `sale` builds its cart through
`add_to_cart` (which drops non-positive quantities) and then runs
`checkout`. -/
def applyOp (db : DB) : Op → DB
  | .intake pid no q c t => addItem db pid no q c t
  | .sale lines => checkout db (lines.foldl addToCart [])
  | .retMain siId q => processReturnMain db siId q
  | .retV3 siId q t => processReturnV3 db siId q t

/-- Run a sequence of operations from the empty database. -/
def runOps (ops : List Op) : DB := ops.foldl applyOp emptyDB

/-- `SELECT COALESCE(SUM(quantity),0) FROM batches WHERE product_id=?`. -/
def onHand (db : DB) (pid : Nat) : Int :=
  ((db.batches.filter fun b => b.productId == pid).map (·.quantity)).sum

/-- Total quantity recorded in the allocation rows of one sale item. -/
def allocTotal (db : DB) (siId : Nat) : Int :=
  ((db.saleItemBatches.filter fun a => a.saleItemId == siId).map (·.quantity)).sum

/-- Total quantity of the `returns` rows of one sale item. -/
def retTotal (db : DB) (siId : Nat) : Int :=
  ((db.returns.filter fun r => r.saleItemId == siId).map (·.quantity)).sum

/-- Sum of the stored (return-adjusted) `sale_items.quantity` over the
sale items of one product. -/
def soldSum (db : DB) (pid : Nat) : Int :=
  ((db.saleItems.filter fun si => si.productId == pid).map (·.quantity)).sum

/-- Sum of the `returns` rows whose sale item belongs to one product. -/
def returnSumP (db : DB) (pid : Nat) : Int :=
  ((db.returns.filter fun r =>
      match findSaleItem db r.saleItemId with
      | some si => si.productId == pid
      | none => false).map (·.quantity)).sum

/-- Total quantity accepted by the intake form for one product along an
operation sequence (intakes with `qty <= 0` are rejected). -/
def intakeSum (ops : List Op) (pid : Nat) : Int :=
  ops.foldr (fun op acc =>
    match op with
    | .intake p _ q _ _ => if p = pid ∧ 0 < q then q + acc else acc
    | _ => acc) 0

/-! ## Spec-side allocation plan (refinement target for the FIFO engine) -/

/-- Modelled from the spec (§4.2): the consumption plan over a snapshot
of `(batch id, batch quantity)` pairs — for each batch in order consume
`take = min(remaining, quantity)`, decrement `remaining`, and stop when
`remaining = 0` (or is exhausted below zero) or no batches are left. -/
def fifoPlanSpec : Int → List (Nat × Int) → List (Nat × Int)
  | _, [] => []
  | remaining, (bid, q) :: rest =>
    if remaining ≤ 0 then []
    else
      let take := min remaining q
      (bid, take) :: fifoPlanSpec (remaining - take) rest

/-- Total quantity a plan takes from one batch id. -/
def planSum (plan : List (Nat × Int)) (x : Nat) : Int :=
  ((plan.filter fun pr => pr.1 == x).map Prod.snd).sum

/-- The `sale_item_batches` rows a plan gives rise to, with consecutive
rowids starting at `startId`. -/
def mkAllocs (startId sid : Nat) : List (Nat × Int) → List SaleItemBatch
  | [] => []
  | (bid, t) :: rest => SaleItemBatch.mk startId sid bid t :: mkAllocs (startId + 1) sid rest

theorem planSum_nil (x : Nat) : planSum [] x = 0 := rfl

theorem planSum_cons (c : Nat) (t : Int) (plan : List (Nat × Int)) (x : Nat) :
    planSum ((c, t) :: plan) x = (if c = x then t else 0) + planSum plan x := by
  by_cases h : c = x <;> simp [planSum, List.filter_cons, h]

/-- Composing a batch decrement with a later per-batch subtraction:
the two updates fuse into a single subtraction per batch id. -/
theorem updateBatchQty_map_sub (bs : List Batch) (bid : Nat) (t : Int) (f : Nat → Int) :
    (updateBatchQty bs bid (-t)).map
        (fun b => { b with quantity := b.quantity - f b.id })
      = bs.map (fun b =>
          { b with quantity := b.quantity - ((if bid = b.id then t else 0) + f b.id) }) := by
  rw [updateBatchQty, List.map_map]
  refine List.map_congr_left fun b _ => ?_
  obtain ⟨i, p, n, qn, c, ct⟩ := b
  by_cases h : i = bid
  · subst h
    simp [Function.comp]
    omega
  · simp [Function.comp, h, (show ¬ bid = i from fun e => h e.symm)]

/-- Full characterization of the FIFO deduction loop: it applies
exactly the spec-side plan — each batch loses what the plan takes from
it, the plan's allocation rows are appended, the allocation counter
advances by the plan length, the remaining shortfall is the request
minus the plan total, and no other table is touched. -/
theorem fifoLoop_eq (sid : Nat) :
    ∀ (snap : List (Nat × Int)) (db : DB) (r : Int),
      fifoLoop sid db r snap =
        ({ db with
            batches := db.batches.map fun b =>
              { b with quantity := b.quantity - planSum (fifoPlanSpec r snap) b.id }
            saleItemBatches :=
              db.saleItemBatches ++ mkAllocs db.nextAllocId sid (fifoPlanSpec r snap)
            nextAllocId := db.nextAllocId + (fifoPlanSpec r snap).length },
          r - ((fifoPlanSpec r snap).map Prod.snd).sum)
  | [], db, r => by
      simp [fifoLoop, fifoPlanSpec, planSum, mkAllocs]
  | (bid, q) :: rest, db, r => by
      by_cases hr : r ≤ 0
      · simp [fifoLoop, fifoPlanSpec, hr, planSum, mkAllocs]
      · rw [fifoLoop, if_neg hr]
        rw [fifoLoop_eq sid rest]
        simp only [fifoPlanSpec, if_neg hr]
        have hb := updateBatchQty_map_sub db.batches bid (min r q)
          (fun x => planSum (fifoPlanSpec (r - min r q) rest) x)
        refine Prod.ext ?_ ?_
        · refine DB.ext ?_ rfl rfl ?_ rfl ?_ rfl rfl ?_ rfl
          · rw [hb]
            refine List.map_congr_left fun b _ => ?_
            rw [planSum_cons]
          · simp [mkAllocs]
          · rfl
          · simp [mkAllocs]
            omega
        · simp
          omega

/-- The conduct of one FIFO deduction call, phrased against the
spec-side plan over the quantity-positive batches of the product in
ascending `created_at` order: batches lose exactly what the plan takes,
the plan's allocation rows (sale item, batch, take) are appended, the
returned shortfall is the request minus the plan total, and no other
table is touched. -/
def FifoDeductClaim (db : DB) (pid : Nat) (q : Int) (sid : Nat) : Prop :=
  (fifoDeduct db pid q sid).1.batches
      = db.batches.map (fun b =>
          { b with quantity := b.quantity -
              planSum (fifoPlanSpec q
                ((sortedLiveBatches db pid).map fun b => (b.id, b.quantity))) b.id })
  ∧ (fifoDeduct db pid q sid).1.saleItemBatches
      = db.saleItemBatches ++ mkAllocs db.nextAllocId sid
          (fifoPlanSpec q ((sortedLiveBatches db pid).map fun b => (b.id, b.quantity)))
  ∧ (fifoDeduct db pid q sid).2
      = q - ((fifoPlanSpec q
          ((sortedLiveBatches db pid).map fun b => (b.id, b.quantity))).map Prod.snd).sum
  ∧ (fifoDeduct db pid q sid).1.sales = db.sales
  ∧ (fifoDeduct db pid q sid).1.saleItems = db.saleItems
  ∧ (fifoDeduct db pid q sid).1.returns = db.returns

/-- C3: for every product and requested quantity > 0, the engine walks
exactly the quantity-positive batches of the product in ascending
received-date order, takes `min(remaining, batch.quantity)` from each,
decrements the batch by the take, records an `(sale item, batch, take)`
allocation row, and decrements `remaining`, stopping when `remaining`
reaches 0 or the batches are exhausted. -/
theorem fifoDeduct_follows_spec_plan (db : DB) (pid : Nat) (q : Int) (sid : Nat)
    (hq : 0 < q) : FifoDeductClaim db pid q sid := by
  unfold FifoDeductClaim
  rw [fifoDeduct, fifoLoop_eq]
  exact ⟨rfl, rfl, rfl, rfl, rfl, rfl⟩

/-- Witness for C3: the spec §8 example (batch A qty 5 received first,
batch B qty 10 received later, request 7). -/
theorem fifoDeduct_follows_spec_plan_witness :
    (0 : Int) < 7 ∧
      FifoDeductClaim (runOps [.intake 1 "A" 5 10 1, .intake 1 "B" 10 10 2]) 1 7 1 :=
  ⟨by decide, fifoDeduct_follows_spec_plan _ 1 7 1 (by decide)⟩

/-- C1 (code-bug evidence): on a product whose only batch holds 1 unit,
a request for 2 leaves `remain = 1` (only a warning dialog in the
source), yet the partial allocation of 1 unit is committed and the
batch is decremented to 0 — the line is not failed and the partial
allocation is not rolled back. -/
theorem fifoDeduct_keeps_shortfall_allocation :
    (fifoDeduct (runOps [.intake 1 "L1" 1 10 1]) 1 2 7).2 = 1 ∧
    (fifoDeduct (runOps [.intake 1 "L1" 1 10 1]) 1 2 7).1.saleItemBatches
      = [⟨1, 7, 1, 1⟩] ∧
    (fifoDeduct (runOps [.intake 1 "L1" 1 10 1]) 1 2 7).1.batches
      = [⟨1, 1, "L1", 0, 10, 1⟩] := by decide

/-- C2 (code-bug evidence): a one-line sale of 2 units against a stock
of 1 still commits the sale header, the full-quantity sale item, the
partial allocation and the batch decrement — nothing is rolled back. -/
theorem checkout_commits_despite_shortage :
    (runOps [.intake 1 "L1" 1 10 1, .sale [⟨1, 2, 3⟩]]).sales = [⟨1, 6⟩] ∧
    (runOps [.intake 1 "L1" 1 10 1, .sale [⟨1, 2, 3⟩]]).saleItems
      = [⟨1, 1, 1, 2, 3⟩] ∧
    (runOps [.intake 1 "L1" 1 10 1, .sale [⟨1, 2, 3⟩]]).saleItemBatches
      = [⟨1, 1, 1, 1⟩] ∧
    (runOps [.intake 1 "L1" 1 10 1, .sale [⟨1, 2, 3⟩]]).batches
      = [⟨1, 1, "L1", 0, 10, 1⟩] := by decide

/-- C5 (counterexample): intake 10, sell 4, return 1 — a scenario with
no shortage at all.  On-hand stock is 7, but the claimed formula
`Σ intake − Σ effective (return-adjusted) sold + Σ returned`
gives 10 − 3 + 1 = 8: counting the return both through the adjusted
sold quantity and through the returns term double-counts it. -/
theorem conservation_formula_fails :
    onHand (runOps [.intake 1 "L1" 10 10 1, .sale [⟨1, 4, 3⟩], .retMain 1 1]) 1 = 7 ∧
    intakeSum [.intake 1 "L1" 10 10 1, .sale [⟨1, 4, 3⟩], .retMain 1 1] 1
        - soldSum (runOps [.intake 1 "L1" 10 10 1, .sale [⟨1, 4, 3⟩], .retMain 1 1]) 1
        + returnSumP (runOps [.intake 1 "L1" 10 10 1, .sale [⟨1, 4, 3⟩], .retMain 1 1]) 1
      = 8 ∧
    ¬ (onHand (runOps [.intake 1 "L1" 10 10 1, .sale [⟨1, 4, 3⟩], .retMain 1 1]) 1
        = intakeSum [.intake 1 "L1" 10 10 1, .sale [⟨1, 4, 3⟩], .retMain 1 1] 1
          - soldSum (runOps [.intake 1 "L1" 10 10 1, .sale [⟨1, 4, 3⟩], .retMain 1 1]) 1
          + returnSumP (runOps [.intake 1 "L1" 10 10 1, .sale [⟨1, 4, 3⟩], .retMain 1 1]) 1) := by
  decide

/-- C6 (counterexample): batch A (received at 1) and batch B (received
at 2, the most recent); a sale of 3 draws from A; a `mainproject.py`
return of 2 restocks A (4 = 2 + 2) and leaves the most recent batch B
untouched at 10, contradicting the most-recent-received restock
policy. -/
theorem return_restock_not_most_recent :
    (runOps [.intake 1 "A" 5 10 1, .intake 1 "B" 10 10 2, .sale [⟨1, 3, 3⟩]]).batches
      = [⟨1, 1, "A", 2, 10, 1⟩, ⟨2, 1, "B", 10, 10, 2⟩] ∧
    (runOps [.intake 1 "A" 5 10 1, .intake 1 "B" 10 10 2, .sale [⟨1, 3, 3⟩],
        .retMain 1 2]).batches
      = [⟨1, 1, "A", 4, 10, 1⟩, ⟨2, 1, "B", 10, 10, 2⟩] ∧
    (runOps [.intake 1 "A" 5 10 1, .intake 1 "B" 10 10 2, .sale [⟨1, 3, 3⟩],
        .retMain 1 2]).returns = [⟨1, 1, 2⟩] := by decide

/-- C7 (counterexample): in the `3.py` revision a return of 5 against a
sale item whose sold quantity is 1 is accepted: the `returns` row is
created with the full quantity 5 and the batch is incremented by 5,
contradicting the claim that such a return fails with no record and no
batch change. -/
theorem returnV3_accepts_over_return :
    (runOps [.intake 1 "L1" 1 10 1, .sale [⟨1, 1, 3⟩]]).saleItems
      = [⟨1, 1, 1, 1, 3⟩] ∧
    (runOps [.intake 1 "L1" 1 10 1, .sale [⟨1, 1, 3⟩], .retV3 1 5 9]).returns
      = [⟨1, 1, 5⟩] ∧
    (runOps [.intake 1 "L1" 1 10 1, .sale [⟨1, 1, 3⟩], .retV3 1 5 9]).batches
      = [⟨1, 1, "L1", 5, 10, 1⟩] := by decide

/-- C8: an intake with positive quantity appends exactly one new batch
holding that quantity (advancing only the batch rowid counter), and an
intake with zero or negative quantity is rejected with no change to the
database at all. -/
theorem addItem_creates_one_batch_iff_positive (db : DB) (pid : Nat) (no : String)
    (qty cost : Int) (now : Nat) :
    (0 < qty →
      addItem db pid no qty cost now
        = { db with
            batches := db.batches ++ [⟨db.nextBatchId, pid, no, qty, cost, now⟩]
            nextBatchId := db.nextBatchId + 1 })
    ∧ (qty ≤ 0 → addItem db pid no qty cost now = db) := by
  constructor
  · intro h
    rw [addItem, if_neg (not_le.2 h)]
  · intro h
    rw [addItem, if_pos h]

/-- Witness for C8: a concrete intake of 5 units into an empty ledger. -/
theorem addItem_creates_one_batch_iff_positive_witness :
    (0 : Int) < 5 ∧
      addItem emptyDB 1 "L1" 5 2 3
        = ⟨[⟨1, 1, "L1", 5, 2, 3⟩], [], [], [], [], 2, 1, 1, 1, 1⟩ :=
  ⟨by decide, (addItem_creates_one_batch_iff_positive emptyDB 1 "L1" 5 2 3).1 (by decide)⟩

/-! ## Characterization of the return restock loop (`mainproject.py` / `7.py`) -/

/-- The giveback plan of the restock loop: for each allocation row in
order, give `min(remaining, allocation.quantity)` back to that
allocation's batch until the remaining return quantity is used up. -/
def givebackPlan : Int → List SaleItemBatch → List (Nat × Int)
  | _, [] => []
  | remain, a :: rest =>
    if remain ≤ 0 then []
    else
      let gb := min remain a.quantity
      (a.batchId, gb) :: givebackPlan (remain - gb) rest

/-- Composing a batch increment with a later per-batch increment. -/
theorem updateBatchQty_map_add (bs : List Batch) (bid : Nat) (t : Int) (f : Nat → Int) :
    (updateBatchQty bs bid t).map
        (fun b => { b with quantity := b.quantity + f b.id })
      = bs.map (fun b =>
          { b with quantity := b.quantity + ((if bid = b.id then t else 0) + f b.id) }) := by
  rw [updateBatchQty, List.map_map]
  refine List.map_congr_left fun b _ => ?_
  obtain ⟨i, p, n, qn, c, ct⟩ := b
  by_cases h : i = bid
  · subst h
    simp [Function.comp]
    omega
  · simp [Function.comp, h, (show ¬ bid = i from fun e => h e.symm)]

/-- The restock loop only increments batch quantities, by exactly the
giveback plan; no other field of the database changes. -/
theorem returnRestockLoop_eq :
    ∀ (allocs : List SaleItemBatch) (db : DB) (r : Int),
      returnRestockLoop db r allocs
        = { db with batches := db.batches.map fun b =>
              { b with quantity := b.quantity + planSum (givebackPlan r allocs) b.id } }
  | [], db, r => by
      simp [returnRestockLoop, givebackPlan, planSum]
  | a :: rest, db, r => by
      by_cases hr : r ≤ 0
      · simp [returnRestockLoop, givebackPlan, hr, planSum]
      · rw [returnRestockLoop, if_neg hr]
        rw [returnRestockLoop_eq rest]
        simp only [givebackPlan, if_neg hr]
        refine DB.ext ?_ rfl rfl rfl rfl rfl rfl rfl rfl rfl
        rw [updateBatchQty_map_add db.batches a.batchId (min r a.quantity)
          (fun x => planSum (givebackPlan (r - min r a.quantity) rest) x)]
        refine List.map_congr_left fun b _ => ?_
        rw [planSum_cons]

/-- Every giveback-plan entry gives a nonnegative amount (over
nonnegative allocation rows). -/
theorem givebackPlan_snd_nonneg (r : Int) (allocs : List SaleItemBatch)
    (hpos : ∀ a ∈ allocs, 0 ≤ a.quantity) :
    ∀ pr ∈ givebackPlan r allocs, 0 ≤ pr.2 := by
  induction allocs generalizing r with
  | nil => simp [givebackPlan]
  | cons a rest ih =>
    intro pr hpr
    rw [givebackPlan] at hpr
    by_cases hr : r ≤ 0
    · simp [hr] at hpr
    · rw [if_neg hr] at hpr
      simp only [List.mem_cons] at hpr
      rcases hpr with h | h
      · have := hpos a (by simp)
        subst h
        simp only []
        omega
      · exact ih _ (fun x hx => hpos x (by simp [hx])) pr h

/-- Every giveback-plan entry points at some allocation's batch. -/
theorem givebackPlan_fst_mem (r : Int) (allocs : List SaleItemBatch) :
    ∀ pr ∈ givebackPlan r allocs, ∃ a ∈ allocs, pr.1 = a.batchId := by
  induction allocs generalizing r with
  | nil => simp [givebackPlan]
  | cons a rest ih =>
    intro pr hpr
    rw [givebackPlan] at hpr
    by_cases hr : r ≤ 0
    · simp [hr] at hpr
    · rw [if_neg hr] at hpr
      simp only [List.mem_cons] at hpr
      rcases hpr with h | h
      · exact ⟨a, by simp, by rw [h]⟩
      · obtain ⟨a', ha', he⟩ := ih _ pr h
        exact ⟨a', by simp [ha'], he⟩

theorem planSum_nonneg (plan : List (Nat × Int)) (x : Nat)
    (h : ∀ pr ∈ plan, 0 ≤ pr.2) : 0 ≤ planSum plan x := by
  induction plan with
  | nil => simp [planSum_nil]
  | cons pr rest ih =>
    obtain ⟨c, t⟩ := pr
    rw [planSum_cons]
    have h1 : (0 : Int) ≤ t := h (c, t) (by simp)
    have h2 := ih fun q hq => h q (by simp [hq])
    by_cases hc : c = x <;> simp [hc] <;> omega

/-- The amount a giveback plan returns to one batch id never exceeds
the total quantity allocated to that batch id. -/
theorem planSum_givebackPlan_le (r : Int) (allocs : List SaleItemBatch) (x : Nat)
    (hpos : ∀ a ∈ allocs, 0 ≤ a.quantity) :
    planSum (givebackPlan r allocs) x
      ≤ ((allocs.filter fun a => a.batchId == x).map (·.quantity)).sum := by
  induction allocs generalizing r with
  | nil => simp [givebackPlan, planSum_nil]
  | cons a rest ih =>
    have hrest : ∀ b ∈ rest, (0 : Int) ≤ b.quantity := fun b hb => hpos b (by simp [hb])
    have hbnd := fun r' => ih r' hrest
    by_cases hr : r ≤ 0
    · rw [givebackPlan, if_pos hr, planSum_nil]
      refine List.sum_nonneg fun q hq => ?_
      simp only [List.mem_map, List.mem_filter] at hq
      obtain ⟨b, ⟨hb, _⟩, he⟩ := hq
      exact he ▸ hpos b hb
    · rw [givebackPlan, if_neg hr]
      simp only []
      rw [planSum_cons, List.filter_cons]
      by_cases hx : a.batchId = x
      · have h1 : (min r a.quantity) ≤ a.quantity := min_le_right _ _
        have h2 := hbnd (r - min r a.quantity)
        simp only [hx, if_pos rfl, beq_self_eq_true, if_pos]
        simp only [List.map_cons, List.sum_cons]
        omega
      · have h2 := hbnd (r - min r a.quantity)
        rw [if_neg hx]
        simp only [show (a.batchId == x) = false from beq_eq_false_iff_ne.2 hx]
        simpa using h2

/-- Water-filling: the total a giveback plan hands out is the smaller
of the remaining return quantity and the total allocated quantity. -/
theorem givebackPlan_total (r : Int) (allocs : List SaleItemBatch) (hr : 0 ≤ r)
    (hpos : ∀ a ∈ allocs, 0 ≤ a.quantity) :
    ((givebackPlan r allocs).map Prod.snd).sum
      = min r ((allocs.map (·.quantity)).sum) := by
  induction allocs generalizing r with
  | nil =>
    simp [givebackPlan]
    omega
  | cons a rest ih =>
    have hq : (0 : Int) ≤ a.quantity := hpos a (by simp)
    have hsum : (0 : Int) ≤ ((rest.map (·.quantity)).sum) :=
      List.sum_nonneg fun q hq => by
        simp only [List.mem_map] at hq
        obtain ⟨b, hb, he⟩ := hq
        exact he ▸ hpos b (by simp [hb])
    by_cases hr0 : r ≤ 0
    · rw [givebackPlan, if_pos hr0]
      simp
      omega
    · rw [givebackPlan, if_neg hr0]
      simp only [List.map_cons, List.sum_cons]
      rw [ih (r - min r a.quantity) (by omega)
        (fun x hx => hpos x (by simp [hx]))]
      omega

/-- Summing `if c = id then t else 0` over batches whose ids avoid `c`
gives zero. -/
theorem sum_map_if_id_zero (bs : List Batch) (c : Nat) (t : Int)
    (hc : c ∉ bs.map Batch.id) :
    (bs.map fun b => if c = b.id then t else 0).sum = 0 := by
  induction bs with
  | nil => simp
  | cons b rest ih =>
    simp only [List.map_cons, List.mem_cons, not_or] at hc
    simp [List.sum_cons, if_neg hc.1, ih hc.2]

/-- Summing `if c = id then t else 0` over batches with distinct ids,
one of which is `c`, gives `t`. -/
theorem sum_map_if_id (bs : List Batch) (c : Nat) (t : Int)
    (hn : (bs.map Batch.id).Nodup) (hc : c ∈ bs.map Batch.id) :
    (bs.map fun b => if c = b.id then t else 0).sum = t := by
  induction bs with
  | nil => simp at hc
  | cons b rest ih =>
    simp only [List.map_cons, List.nodup_cons] at hn
    simp only [List.map_cons, List.mem_cons] at hc
    rcases hc with h | h
    · rw [List.map_cons, List.sum_cons, if_pos h,
        sum_map_if_id_zero rest c t (h ▸ hn.1)]
      omega
    · have hne : c ≠ b.id := fun e => hn.1 (e ▸ h)
      rw [List.map_cons, List.sum_cons, if_neg hne, ih hn.2 h]
      omega

/-- Over batches with distinct ids covering all plan targets, the sum
of the per-batch plan amounts is the plan's total. -/
theorem sum_map_planSum (bs : List Batch) (plan : List (Nat × Int))
    (hn : (bs.map Batch.id).Nodup) (hsub : ∀ pr ∈ plan, pr.1 ∈ bs.map Batch.id) :
    (bs.map fun b => planSum plan b.id).sum = (plan.map Prod.snd).sum := by
  induction plan with
  | nil => simp [planSum_nil]
  | cons pr rest ih =>
    obtain ⟨c, t⟩ := pr
    have h1 : ∀ b : Batch, planSum ((c, t) :: rest) b.id
        = (if c = b.id then t else 0) + planSum rest b.id := fun b => planSum_cons ..
    calc (bs.map fun b => planSum ((c, t) :: rest) b.id).sum
        = (bs.map fun b => (if c = b.id then t else 0) + planSum rest b.id).sum := by
          exact congrArg List.sum (List.map_congr_left fun b _ => h1 b)
      _ = (bs.map fun b => if c = b.id then t else 0).sum
            + (bs.map fun b => planSum rest b.id).sum := List.sum_map_add
      _ = t + (rest.map Prod.snd).sum := by
          rw [sum_map_if_id bs c t hn (hsub (c, t) (by simp)),
            ih fun q hq => hsub q (by simp [hq])]
      _ = (((c, t) :: rest).map Prod.snd).sum := by simp

/-- Closed form of an accepted `mainproject.py` return: the `returns`
row is appended, batches gain the giveback plan, the sale item's
quantity drops by the returned amount. -/
theorem processReturnMain_eq (db : DB) (si : SaleItem) (siId : Nat) (r : Int)
    (hfind : findSaleItem db siId = some si) (hcond : ¬ (r ≤ 0 ∨ si.quantity < r)) :
    processReturnMain db siId r
      = { db with
          batches := db.batches.map fun b =>
            { b with quantity := b.quantity
                + planSum (givebackPlan r (allocsForItem db siId)) b.id }
          saleItems := db.saleItems.map fun s =>
            if s.id = siId then { s with quantity := s.quantity - r } else s
          returns := db.returns ++ [⟨db.nextReturnId, siId, r⟩]
          nextReturnId := db.nextReturnId + 1 } := by
  simp only [processReturnMain]
  rw [hfind]
  simp only [if_neg hcond]
  rw [returnRestockLoop_eq]
  rfl

/-- C10: for an accepted return in the revisions that restock into the
original sale's allocation batches (`mainproject.py`, `7.py`):
the `returns` row records the full requested quantity, every batch is
incremented by at most the quantity originally allocated to it for
this sale item, and the total quantity restocked across all batches is
`min(returnQty, total allocated)` — any excess beyond the sale item's
recorded allocations is restocked to no batch at all. -/
theorem returnMain_restock_capped (db : DB) (si : SaleItem) (siId : Nat) (r : Int)
    (hfind : findSaleItem db siId = some si) (h0 : 0 < r) (hle : r ≤ si.quantity)
    (hpos : ∀ a ∈ db.saleItemBatches, 0 ≤ a.quantity)
    (hn : (db.batches.map Batch.id).Nodup)
    (hcover : ∀ a ∈ db.saleItemBatches, a.saleItemId = siId →
        a.batchId ∈ db.batches.map Batch.id) :
    (processReturnMain db siId r).returns = db.returns ++ [⟨db.nextReturnId, siId, r⟩]
    ∧ (∀ b' ∈ (processReturnMain db siId r).batches, ∃ b ∈ db.batches,
        b'.id = b.id ∧ b.quantity ≤ b'.quantity ∧
        b'.quantity ≤ b.quantity
          + (((allocsForItem db siId).filter fun a => a.batchId == b.id).map
              (·.quantity)).sum)
    ∧ ((processReturnMain db siId r).batches.map (·.quantity)).sum
        = (db.batches.map (·.quantity)).sum + min r (allocTotal db siId) := by
  have hcond : ¬ (r ≤ 0 ∨ si.quantity < r) := by omega
  have heq := processReturnMain_eq db si siId r hfind hcond
  have hposA : ∀ a ∈ allocsForItem db siId, (0 : Int) ≤ a.quantity := by
    intro a ha
    simp only [allocsForItem, List.mem_insertionSort, List.mem_filter] at ha
    exact hpos a ha.1
  have hsubids : ∀ pr ∈ givebackPlan r (allocsForItem db siId),
      pr.1 ∈ db.batches.map Batch.id := by
    intro pr hpr
    obtain ⟨a, ha, he⟩ := givebackPlan_fst_mem r (allocsForItem db siId) pr hpr
    simp only [allocsForItem, List.mem_insertionSort, List.mem_filter,
      beq_iff_eq] at ha
    exact he ▸ hcover a ha.1 ha.2
  have hallocsum : ((allocsForItem db siId).map (·.quantity)).sum
      = allocTotal db siId := by
    have hperm : (allocsForItem db siId).Perm
        (db.saleItemBatches.filter fun a => a.saleItemId == siId) :=
      List.perm_insertionSort _ _
    exact List.Perm.sum_eq (hperm.map _)
  refine ⟨by rw [heq], ?_, ?_⟩
  · intro b' hb'
    rw [heq] at hb'
    simp only [List.mem_map] at hb'
    obtain ⟨b, hb, hbe⟩ := hb'
    refine ⟨b, hb, ?_, ?_, ?_⟩
    · rw [← hbe]
    · rw [← hbe]
      have := planSum_nonneg (givebackPlan r (allocsForItem db siId)) b.id
        (givebackPlan_snd_nonneg r _ hposA)
      simp only []
      omega
    · rw [← hbe]
      have := planSum_givebackPlan_le r (allocsForItem db siId) b.id hposA
      simp only []
      omega
  · rw [heq]
    have h1 : (((db.batches.map fun b =>
        { b with quantity := b.quantity
            + planSum (givebackPlan r (allocsForItem db siId)) b.id }).map
          (·.quantity)).sum)
        = ((db.batches.map fun b => b.quantity
            + planSum (givebackPlan r (allocsForItem db siId)) b.id).sum) := by
      rw [List.map_map]
      rfl
    rw [h1, List.sum_map_add,
      sum_map_planSum db.batches _ hn hsubids,
      givebackPlan_total r _ (le_of_lt h0) hposA, hallocsum]

/-- Witness for C10: intake 1 unit, sell a line of 2 (the engine only
allocates 1), then return 2 — accepted, the `returns` row records 2,
but only 1 unit (the allocation total) is restocked. -/
theorem returnMain_restock_capped_witness :
    (findSaleItem (runOps [.intake 1 "L1" 1 10 1, .sale [⟨1, 2, 3⟩]]) 1
        = some ⟨1, 1, 1, 2, 3⟩)
    ∧ ((0 : Int) < 2)
    ∧ ((2 : Int) ≤ 2)
    ∧ ((processReturnMain (runOps [.intake 1 "L1" 1 10 1, .sale [⟨1, 2, 3⟩]]) 1 2).returns
          = [⟨1, 1, 2⟩]
        ∧ (∀ b' ∈ (processReturnMain
              (runOps [.intake 1 "L1" 1 10 1, .sale [⟨1, 2, 3⟩]]) 1 2).batches,
            ∃ b ∈ (runOps [.intake 1 "L1" 1 10 1, .sale [⟨1, 2, 3⟩]]).batches,
            b'.id = b.id ∧ b.quantity ≤ b'.quantity ∧
            b'.quantity ≤ b.quantity
              + (((allocsForItem (runOps [.intake 1 "L1" 1 10 1, .sale [⟨1, 2, 3⟩]]) 1).filter
                  fun a => a.batchId == b.id).map (·.quantity)).sum)
        ∧ ((processReturnMain
              (runOps [.intake 1 "L1" 1 10 1, .sale [⟨1, 2, 3⟩]]) 1 2).batches.map
              (·.quantity)).sum
            = ((runOps [.intake 1 "L1" 1 10 1, .sale [⟨1, 2, 3⟩]]).batches.map
                (·.quantity)).sum
              + min 2 (allocTotal (runOps [.intake 1 "L1" 1 10 1, .sale [⟨1, 2, 3⟩]]) 1)) :=
  ⟨by decide, by decide, by decide,
    by
      have h := returnMain_restock_capped
        (runOps [.intake 1 "L1" 1 10 1, .sale [⟨1, 2, 3⟩]]) ⟨1, 1, 1, 2, 3⟩ 1 2
        (by decide) (by decide) (by decide) (by decide) (by decide) (by decide)
      simpa using h⟩

/-- C7 (amended): in the `mainproject.py` / `7.py` revision a return
against an existing sale item is rejected — with no change to any
table — unless `0 < qty ≤` the item's current (return-adjusted) sold
quantity, and accepted exactly otherwise, appending the `returns` row
and decrementing the sale item. -/
theorem returnMain_accepts_iff (db : DB) (si : SaleItem) (siId : Nat) (r : Int)
    (hfind : findSaleItem db siId = some si) :
    (¬ (0 < r ∧ r ≤ si.quantity) → processReturnMain db siId r = db)
    ∧ ((0 < r ∧ r ≤ si.quantity) →
        (processReturnMain db siId r).returns
            = db.returns ++ [⟨db.nextReturnId, siId, r⟩]
          ∧ (processReturnMain db siId r).saleItems
            = db.saleItems.map fun s =>
                if s.id = siId then { s with quantity := s.quantity - r } else s) := by
  constructor
  · intro h
    have hcond : r ≤ 0 ∨ si.quantity < r := by omega
    simp only [processReturnMain]
    rw [hfind]
    simp only [if_pos hcond]
  · intro h
    rw [processReturnMain_eq db si siId r hfind (by omega)]
    exact ⟨rfl, rfl⟩

/-- Witness for C7's amended theorem: a sale of 3 units, then an
attempted return of 4 — rejected, leaving the database untouched. -/
theorem returnMain_accepts_iff_witness :
    (findSaleItem (runOps [.intake 1 "L1" 5 10 1, .sale [⟨1, 3, 2⟩]]) 1
        = some ⟨1, 1, 1, 3, 2⟩)
    ∧ ((¬ ((0 : Int) < 4 ∧ (4 : Int) ≤ 3) →
          processReturnMain (runOps [.intake 1 "L1" 5 10 1, .sale [⟨1, 3, 2⟩]]) 1 4
            = runOps [.intake 1 "L1" 5 10 1, .sale [⟨1, 3, 2⟩]])
        ∧ (((0 : Int) < 4 ∧ (4 : Int) ≤ 3) →
            (processReturnMain (runOps [.intake 1 "L1" 5 10 1, .sale [⟨1, 3, 2⟩]]) 1 4).returns
                = (runOps [.intake 1 "L1" 5 10 1, .sale [⟨1, 3, 2⟩]]).returns
                  ++ [⟨(runOps [.intake 1 "L1" 5 10 1, .sale [⟨1, 3, 2⟩]]).nextReturnId, 1, 4⟩]
              ∧ (processReturnMain (runOps [.intake 1 "L1" 5 10 1, .sale [⟨1, 3, 2⟩]]) 1 4).saleItems
                = (runOps [.intake 1 "L1" 5 10 1, .sale [⟨1, 3, 2⟩]]).saleItems.map fun s =>
                    if s.id = 1 then { s with quantity := s.quantity - 4 } else s)) :=
  ⟨by decide,
    returnMain_accepts_iff (runOps [.intake 1 "L1" 5 10 1, .sale [⟨1, 3, 2⟩]])
      ⟨1, 1, 1, 3, 2⟩ 1 4 (by decide)⟩

/-! ## The LIFO restock target of `3.py` -/

instance : IsTotal Batch (fun a b => b.createdAt ≤ a.createdAt) :=
  ⟨fun a b => le_total b.createdAt a.createdAt⟩

instance : IsTrans Batch (fun a b => b.createdAt ≤ a.createdAt) :=
  ⟨fun _ _ _ hab hbc => le_trans hbc hab⟩

/-- `mostRecentBatch` is `none` exactly when the product has no batch
row at all. -/
theorem mostRecentBatch_eq_none_iff (db : DB) (pid : Nat) :
    mostRecentBatch db pid = none ↔ ∀ b ∈ db.batches, b.productId ≠ pid := by
  constructor
  · intro h b hb hp
    rw [mostRecentBatch] at h
    cases hls : List.insertionSort (fun a b => b.createdAt ≤ a.createdAt)
        (db.batches.filter fun x => x.productId == pid) with
    | nil =>
      have : b ∈ List.insertionSort (fun a b => b.createdAt ≤ a.createdAt)
          (db.batches.filter fun x => x.productId == pid) := by
        rw [List.mem_insertionSort]
        exact List.mem_filter.2 ⟨hb, by simpa using hp⟩
      rw [hls] at this
      simp at this
    | cons x t => rw [hls] at h; simp at h
  · intro h
    rw [mostRecentBatch]
    have hf : db.batches.filter (fun x => x.productId == pid) = [] :=
      List.filter_eq_nil_iff.2 fun b hb => by simpa using h b hb
    rw [hf]
    rfl

/-- A batch returned by `mostRecentBatch` belongs to the product and
carries its most recent received date. -/
theorem mostRecentBatch_spec (db : DB) (pid : Nat) (b : Batch)
    (h : mostRecentBatch db pid = some b) :
    b ∈ db.batches ∧ b.productId = pid
      ∧ ∀ b' ∈ db.batches, b'.productId = pid → b'.createdAt ≤ b.createdAt := by
  rw [mostRecentBatch] at h
  cases hls : List.insertionSort (fun a b => b.createdAt ≤ a.createdAt)
      (db.batches.filter fun x => x.productId == pid) with
  | nil => rw [hls] at h; simp at h
  | cons x t =>
    rw [hls] at h
    have hxb : x = b := by simpa using h
    subst hxb
    have hmem : x ∈ db.batches.filter fun y => y.productId == pid := by
      rw [← List.mem_insertionSort (fun a b => b.createdAt ≤ a.createdAt), hls]
      exact List.mem_cons_self x t
    have hx := List.mem_filter.1 hmem
    refine ⟨hx.1, by simpa using hx.2, ?_⟩
    intro b' hb' hp'
    have hb'm : b' ∈ x :: t := by
      rw [← hls, List.mem_insertionSort]
      exact List.mem_filter.2 ⟨hb', by simpa using hp'⟩
    have hs : List.Sorted (fun a b => b.createdAt ≤ a.createdAt) (x :: t) := by
      rw [← hls]
      exact List.sorted_insertionSort _ _
    rcases List.mem_cons.1 hb'm with he | hm
    · rw [he]
    · exact List.rel_of_sorted_cons hs b' hm

/-- Closed form of an accepted `3.py` return when the product has a
batch: the `returns` row is appended and the most recent batch is
incremented. -/
theorem processReturnV3_eq_some (db : DB) (si : SaleItem) (siId : Nat) (q : Int)
    (now : Nat) (b : Batch) (hfind : findSaleItem db siId = some si) (hq : 0 < q)
    (hmb : mostRecentBatch db si.productId = some b) :
    processReturnV3 db siId q now
      = { db with
          batches := updateBatchQty db.batches b.id q
          returns := db.returns ++ [⟨db.nextReturnId, siId, q⟩]
          nextReturnId := db.nextReturnId + 1 } := by
  simp only [processReturnV3]
  rw [hfind]
  simp only [if_neg (not_le.2 hq)]
  have h1 : mostRecentBatch
      { db with
        returns := db.returns ++ [⟨db.nextReturnId, siId, q⟩]
        nextReturnId := db.nextReturnId + 1 } si.productId = some b := hmb
  rw [h1]

/-- Closed form of an accepted `3.py` return when the product has no
batch at all: a synthetic `'RETURN'` batch with cost 0 and received
date `now` is created holding the returned quantity. -/
theorem processReturnV3_eq_none (db : DB) (si : SaleItem) (siId : Nat) (q : Int)
    (now : Nat) (hfind : findSaleItem db siId = some si) (hq : 0 < q)
    (hmb : mostRecentBatch db si.productId = none) :
    processReturnV3 db siId q now
      = { db with
          batches := db.batches ++ [⟨db.nextBatchId, si.productId, "RETURN", q, 0, now⟩]
          returns := db.returns ++ [⟨db.nextReturnId, siId, q⟩]
          nextBatchId := db.nextBatchId + 1
          nextReturnId := db.nextReturnId + 1 } := by
  simp only [processReturnV3]
  rw [hfind]
  simp only [if_neg (not_le.2 hq)]
  have h1 : mostRecentBatch
      { db with
        returns := db.returns ++ [⟨db.nextReturnId, siId, q⟩]
        nextReturnId := db.nextReturnId + 1 } si.productId = none := hmb
  rw [h1]

/-- C6 (amended, `3.py` revision): an accepted return appends the
`returns` row; when the product has at least one batch the restock
destination is a batch of that product with the most recent received
date, incremented by the returned amount (all other rows untouched);
when the product has no batch at all a synthetic batch with lot label
`"RETURN"`, cost price 0 and received date `now` is created holding
the returned quantity. -/
theorem returnV3_restocks_most_recent (db : DB) (si : SaleItem) (siId : Nat)
    (q : Int) (now : Nat) (hfind : findSaleItem db siId = some si) (hq : 0 < q) :
    (processReturnV3 db siId q now).returns
        = db.returns ++ [⟨db.nextReturnId, siId, q⟩]
    ∧ ((∃ b0 ∈ db.batches, b0.productId = si.productId) →
        ∃ b ∈ db.batches, b.productId = si.productId
          ∧ (∀ b' ∈ db.batches, b'.productId = si.productId →
              b'.createdAt ≤ b.createdAt)
          ∧ (processReturnV3 db siId q now).batches = updateBatchQty db.batches b.id q)
    ∧ ((∀ b0 ∈ db.batches, b0.productId ≠ si.productId) →
        (processReturnV3 db siId q now).batches
          = db.batches ++ [⟨db.nextBatchId, si.productId, "RETURN", q, 0, now⟩]) := by
  refine ⟨?_, ?_, ?_⟩
  · cases hmb : mostRecentBatch db si.productId with
    | none => rw [processReturnV3_eq_none db si siId q now hfind hq hmb]
    | some b => rw [processReturnV3_eq_some db si siId q now b hfind hq hmb]
  · intro ⟨b0, hb0, hp0⟩
    cases hmb : mostRecentBatch db si.productId with
    | none =>
      exact absurd hp0 ((mostRecentBatch_eq_none_iff db si.productId).1 hmb b0 hb0)
    | some b =>
      obtain ⟨hbm, hbp, hmax⟩ := mostRecentBatch_spec db si.productId b hmb
      exact ⟨b, hbm, hbp, hmax,
        by rw [processReturnV3_eq_some db si siId q now b hfind hq hmb]⟩
  · intro hnone
    rw [processReturnV3_eq_none db si siId q now hfind hq
      ((mostRecentBatch_eq_none_iff db si.productId).2 hnone)]

/-- Witness for C6's amended theorem: two batches of one product, a
sale from the older one, then a `3.py` return of 2 — it restocks the
batch received at time 2. -/
theorem returnV3_restocks_most_recent_witness :
    (findSaleItem (runOps [.intake 1 "A" 5 10 1, .intake 1 "B" 10 10 2,
          .sale [⟨1, 3, 3⟩]]) 1 = some ⟨1, 1, 1, 3, 3⟩)
    ∧ ((0 : Int) < 2)
    ∧ ((processReturnV3 (runOps [.intake 1 "A" 5 10 1, .intake 1 "B" 10 10 2,
            .sale [⟨1, 3, 3⟩]]) 1 2 9).returns
          = (runOps [.intake 1 "A" 5 10 1, .intake 1 "B" 10 10 2,
              .sale [⟨1, 3, 3⟩]]).returns
            ++ [⟨(runOps [.intake 1 "A" 5 10 1, .intake 1 "B" 10 10 2,
                .sale [⟨1, 3, 3⟩]]).nextReturnId, 1, 2⟩]
        ∧ ((∃ b0 ∈ (runOps [.intake 1 "A" 5 10 1, .intake 1 "B" 10 10 2,
              .sale [⟨1, 3, 3⟩]]).batches,
              b0.productId = (⟨1, 1, 1, 3, 3⟩ : SaleItem).productId) →
            ∃ b ∈ (runOps [.intake 1 "A" 5 10 1, .intake 1 "B" 10 10 2,
                .sale [⟨1, 3, 3⟩]]).batches,
              b.productId = (⟨1, 1, 1, 3, 3⟩ : SaleItem).productId
              ∧ (∀ b' ∈ (runOps [.intake 1 "A" 5 10 1, .intake 1 "B" 10 10 2,
                    .sale [⟨1, 3, 3⟩]]).batches,
                  b'.productId = (⟨1, 1, 1, 3, 3⟩ : SaleItem).productId →
                  b'.createdAt ≤ b.createdAt)
              ∧ (processReturnV3 (runOps [.intake 1 "A" 5 10 1, .intake 1 "B" 10 10 2,
                    .sale [⟨1, 3, 3⟩]]) 1 2 9).batches
                = updateBatchQty (runOps [.intake 1 "A" 5 10 1, .intake 1 "B" 10 10 2,
                    .sale [⟨1, 3, 3⟩]]).batches b.id 2)
        ∧ ((∀ b0 ∈ (runOps [.intake 1 "A" 5 10 1, .intake 1 "B" 10 10 2,
                .sale [⟨1, 3, 3⟩]]).batches,
              b0.productId ≠ (⟨1, 1, 1, 3, 3⟩ : SaleItem).productId) →
            (processReturnV3 (runOps [.intake 1 "A" 5 10 1, .intake 1 "B" 10 10 2,
                .sale [⟨1, 3, 3⟩]]) 1 2 9).batches
              = (runOps [.intake 1 "A" 5 10 1, .intake 1 "B" 10 10 2,
                  .sale [⟨1, 3, 3⟩]]).batches
                ++ [⟨(runOps [.intake 1 "A" 5 10 1, .intake 1 "B" 10 10 2,
                    .sale [⟨1, 3, 3⟩]]).nextBatchId,
                  (⟨1, 1, 1, 3, 3⟩ : SaleItem).productId, "RETURN", 2, 0, 9⟩])) :=
  ⟨by decide, by decide,
    returnV3_restocks_most_recent
      (runOps [.intake 1 "A" 5 10 1, .intake 1 "B" 10 10 2, .sale [⟨1, 3, 3⟩]])
      ⟨1, 1, 1, 3, 3⟩ 1 2 9 (by decide) (by decide)⟩

/-! ## Plan and snapshot lemmas for the ledger invariants -/

theorem sumMapSub {α : Type} (l : List α) (f g : α → Int) :
    (l.map fun x => f x - g x).sum = (l.map f).sum - (l.map g).sum := by
  induction l with
  | nil => simp
  | cons a t ih =>
    simp only [List.map_cons, List.sum_cons, ih]
    omega

/-- Distinct batch ids identify batches. -/
theorem eq_of_mem_of_id_eq {bs : List Batch} (hn : (bs.map Batch.id).Nodup)
    {b b' : Batch} (hb : b ∈ bs) (hb' : b' ∈ bs) (he : b.id = b'.id) : b = b' :=
  List.inj_on_of_nodup_map hn hb hb' he

theorem planSum_eq_zero (plan : List (Nat × Int)) (x : Nat)
    (h : ∀ pr ∈ plan, pr.1 ≠ x) : planSum plan x = 0 := by
  rw [planSum]
  have he : plan.filter (fun pr => pr.1 == x) = [] :=
    List.filter_eq_nil_iff.2 fun pr hpr => by simpa using h pr hpr
  rw [he]
  rfl

theorem planSum_eq_of_mem_nodup (plan : List (Nat × Int)) (x : Nat) (t : Int)
    (hn : (plan.map Prod.fst).Nodup) (hm : (x, t) ∈ plan) : planSum plan x = t := by
  induction plan with
  | nil => simp at hm
  | cons pr rest ih =>
    obtain ⟨c, u⟩ := pr
    simp only [List.map_cons, List.nodup_cons] at hn
    rw [planSum_cons]
    rcases List.mem_cons.1 hm with he | hm'
    · obtain ⟨he1, he2⟩ := Prod.mk.injEq .. ▸ he
      subst he1
      subst he2
      rw [if_pos rfl, planSum_eq_zero rest x
        (fun pr hpr hx => hn.1 (hx ▸ List.mem_map_of_mem Prod.fst hpr))]
      omega
    · have hcx : c ≠ x := by
        intro he
        refine hn.1 ?_
        rw [he]
        exact List.mem_map_of_mem Prod.fst hm'
      rw [if_neg hcx, ih hn.2 hm']
      omega

/-- Every plan entry corresponds to a snapshot entry, taking no more
than the snapshot quantity. -/
theorem fifoPlanSpec_entry :
    ∀ (r : Int) (snap : List (Nat × Int)), ∀ pr ∈ fifoPlanSpec r snap,
      ∃ p ∈ snap, pr.1 = p.1 ∧ pr.2 ≤ p.2 := by
  intro r snap
  induction snap generalizing r with
  | nil => simp [fifoPlanSpec]
  | cons p rest ih =>
    obtain ⟨bid, q⟩ := p
    intro pr hpr
    rw [fifoPlanSpec] at hpr
    by_cases hr : r ≤ 0
    · simp [hr] at hpr
    · rw [if_neg hr] at hpr
      rcases List.mem_cons.1 hpr with he | hm
      · subst he
        exact ⟨(bid, q), by simp, rfl, min_le_right _ _⟩
      · obtain ⟨p0, hp0, h1, h2⟩ := ih _ pr hm
        exact ⟨p0, by simp [hp0], h1, h2⟩

/-- Positive snapshot quantities give positive plan takes. -/
theorem fifoPlanSpec_snd_pos :
    ∀ (r : Int) (snap : List (Nat × Int)), (∀ p ∈ snap, 0 < p.2) →
      ∀ pr ∈ fifoPlanSpec r snap, 0 < pr.2 := by
  intro r snap
  induction snap generalizing r with
  | nil => simp [fifoPlanSpec]
  | cons p rest ih =>
    obtain ⟨bid, q⟩ := p
    intro hsnap pr hpr
    rw [fifoPlanSpec] at hpr
    by_cases hr : r ≤ 0
    · simp [hr] at hpr
    · rw [if_neg hr] at hpr
      rcases List.mem_cons.1 hpr with he | hm
      · subst he
        have := hsnap (bid, q) (by simp)
        simp only [] at this ⊢
        omega
      · exact ih _ (fun p hp => hsnap p (by simp [hp])) pr hm

/-- The plan's batch ids form a sublist of the snapshot's batch ids. -/
theorem fifoPlanSpec_fst_sublist :
    ∀ (r : Int) (snap : List (Nat × Int)),
      ((fifoPlanSpec r snap).map Prod.fst).Sublist (snap.map Prod.fst) := by
  intro r snap
  induction snap generalizing r with
  | nil => simp [fifoPlanSpec]
  | cons p rest ih =>
    obtain ⟨bid, q⟩ := p
    rw [fifoPlanSpec]
    by_cases hr : r ≤ 0
    · simp [hr]
    · rw [if_neg hr]
      simpa using List.Sublist.cons₂ bid (ih (r - min r q))

/-- Membership in the allocation rows built from a plan. -/
theorem mem_mkAllocs :
    ∀ (plan : List (Nat × Int)) (i sid : Nat) (a : SaleItemBatch),
      a ∈ mkAllocs i sid plan →
      a.saleItemId = sid ∧ (a.batchId, a.quantity) ∈ plan := by
  intro plan
  induction plan with
  | nil => intro i sid a ha; simp [mkAllocs] at ha
  | cons pr rest ih =>
    obtain ⟨bid, t⟩ := pr
    intro i sid a ha
    rw [mkAllocs] at ha
    rcases List.mem_cons.1 ha with he | hm
    · subst he
      exact ⟨rfl, by simp⟩
    · obtain ⟨h1, h2⟩ := ih (i + 1) sid a hm
      exact ⟨h1, by simp [h2]⟩

/-- Quantity-only rewrites keep the id column of the batch table. -/
theorem map_quantity_map_id (bs : List Batch) (f : Batch → Int) :
    ((bs.map fun b => { b with quantity := f b }).map Batch.id) = bs.map Batch.id := by
  rw [List.map_map]
  rfl

/-- Membership in the FIFO snapshot comes from a live batch of the
product. -/
theorem snap_mem (db : DB) (pid : Nat) (p : Nat × Int)
    (hp : p ∈ (sortedLiveBatches db pid).map fun b => (b.id, b.quantity)) :
    ∃ b ∈ db.batches, b.productId = pid ∧ 0 < b.quantity ∧ p = (b.id, b.quantity) := by
  simp only [List.mem_map] at hp
  obtain ⟨b, hb, he⟩ := hp
  rw [sortedLiveBatches, List.mem_insertionSort, List.mem_filter] at hb
  obtain ⟨hmem, hcond⟩ := hb
  rw [decide_eq_true_eq] at hcond
  exact ⟨b, hmem, hcond.1, hcond.2, he.symm⟩

/-- The FIFO snapshot inherits distinct batch ids from the table. -/
theorem snap_fst_nodup (db : DB) (pid : Nat)
    (hn : (db.batches.map Batch.id).Nodup) :
    (((sortedLiveBatches db pid).map fun b => (b.id, b.quantity)).map Prod.fst).Nodup := by
  have h1 : (((sortedLiveBatches db pid).map fun b => (b.id, b.quantity)).map Prod.fst)
      = (sortedLiveBatches db pid).map Batch.id := by
    rw [List.map_map]
    rfl
  rw [h1]
  have hperm : (sortedLiveBatches db pid).Perm
      (db.batches.filter fun b => decide (b.productId = pid ∧ 0 < b.quantity)) :=
    List.perm_insertionSort _ _
  refine (hperm.map Batch.id).symm.nodup ?_
  exact List.Nodup.sublist
    (List.Sublist.map Batch.id (List.filter_sublist db.batches)) hn

/-- After one FIFO deduction, batch quantities stay nonnegative. -/
theorem fifoDeduct_batchNonneg (db : DB) (pid : Nat) (q : Int) (sid : Nat)
    (hnn : ∀ b ∈ db.batches, 0 ≤ b.quantity)
    (hn : (db.batches.map Batch.id).Nodup) :
    ∀ b' ∈ (fifoDeduct db pid q sid).1.batches, 0 ≤ b'.quantity := by
  intro b' hb'
  rw [fifoDeduct, fifoLoop_eq] at hb'
  simp only [List.mem_map] at hb'
  obtain ⟨b, hb, he⟩ := hb'
  rw [← he]
  simp only []
  set plan := fifoPlanSpec q ((sortedLiveBatches db pid).map fun b => (b.id, b.quantity))
    with hplan
  by_cases hc : ∀ pr ∈ plan, pr.1 ≠ b.id
  · rw [planSum_eq_zero plan b.id hc]
    have := hnn b hb
    omega
  · push_neg at hc
    obtain ⟨pr, hpr, hpr1⟩ := hc
    have hnp : (plan.map Prod.fst).Nodup :=
      List.Nodup.sublist (fifoPlanSpec_fst_sublist q _) (snap_fst_nodup db pid hn)
    have hps : planSum plan b.id = pr.2 := by
      have : (b.id, pr.2) ∈ plan := by
        have : pr = (b.id, pr.2) := by
          rw [← hpr1]
        exact this ▸ hpr
      exact planSum_eq_of_mem_nodup plan b.id pr.2 hnp this
    obtain ⟨p0, hp0, hfst, hle⟩ := fifoPlanSpec_entry q _ pr hpr
    obtain ⟨b0, hb0, hbp, hbq, hpe⟩ := snap_mem db pid p0 hp0
    have hb0b : b0 = b := by
      refine eq_of_mem_of_id_eq hn hb0 hb ?_
      rw [hpe] at hfst
      simp only [] at hfst
      omega
    subst hb0b
    rw [hps]
    rw [hpe] at hle
    simp only [] at hle
    omega

/-! ## Well-formedness invariant of reachable databases -/

theorem updateBatchQty_map_id (bs : List Batch) (bid : Nat) (d : Int) :
    (updateBatchQty bs bid d).map Batch.id = bs.map Batch.id := by
  rw [updateBatchQty, List.map_map]
  refine List.map_congr_left fun b _ => ?_
  by_cases h : b.id = bid <;> simp [Function.comp, h]

theorem updateBatchQty_nonneg (bs : List Batch) (bid : Nat) (d : Int)
    (h : ∀ b ∈ bs, 0 ≤ b.quantity) (hd : 0 ≤ d) :
    ∀ b ∈ updateBatchQty bs bid d, 0 ≤ b.quantity := by
  intro b hb
  rw [updateBatchQty] at hb
  simp only [List.mem_map] at hb
  obtain ⟨b0, hb0, he⟩ := hb
  have := h b0 hb0
  by_cases hc : b0.id = bid
  · rw [if_pos hc] at he
    rw [← he]
    simp only []
    omega
  · rw [if_neg hc] at he
    exact he ▸ this

theorem mem_updateBatchQty (bs : List Batch) (bid : Nat) (d : Int) (b0 : Batch)
    (h : b0 ∈ bs) :
    ∃ b' ∈ updateBatchQty bs bid d, b'.id = b0.id ∧ b'.productId = b0.productId := by
  by_cases hc : b0.id = bid
  · exact ⟨{ b0 with quantity := b0.quantity + d },
      by rw [updateBatchQty]
         have : (if b0.id = bid then { b0 with quantity := b0.quantity + d } else b0)
             = { b0 with quantity := b0.quantity + d } := if_pos hc
         exact this ▸ List.mem_map_of_mem _ h, rfl, rfl⟩
  · exact ⟨b0,
      by rw [updateBatchQty]
         have : (if b0.id = bid then { b0 with quantity := b0.quantity + d } else b0)
             = b0 := if_neg hc
         exact this ▸ List.mem_map_of_mem _ h, rfl, rfl⟩

theorem map_adjust_item_id (l : List SaleItem) (siId : Nat) (r : Int) :
    ((l.map fun s => if s.id = siId then { s with quantity := s.quantity - r } else s).map
      SaleItem.id) = l.map SaleItem.id := by
  rw [List.map_map]
  refine List.map_congr_left fun s _ => ?_
  by_cases h : s.id = siId <;> simp [Function.comp, h]

theorem find?_id_map_adjust (l : List SaleItem) (siId : Nat) (r : Int) (i : Nat) :
    ((l.map fun s => if s.id = siId then { s with quantity := s.quantity - r } else s).find?
        fun s => s.id == i)
      = (l.find? fun s => s.id == i).map
          fun s => if s.id = siId then { s with quantity := s.quantity - r } else s := by
  rw [List.find?_map]
  have hf : ((fun s => s.id == i) ∘ fun s =>
      if s.id = siId then { s with quantity := s.quantity - r } else s)
      = fun s : SaleItem => s.id == i := by
    funext s
    by_cases h : s.id = siId <;> simp [Function.comp, h]
  rw [hf]

/-- Invariants maintained by every reachable database: nonnegative
batch quantities, fresh and distinct rowids, positive allocation and
return quantities, nonnegative sale-item quantities, and referential
links from allocations and returns to their sale items and batches. -/
structure Inv (db : DB) : Prop where
  batchNonneg : ∀ b ∈ db.batches, 0 ≤ b.quantity
  batchIdLt : ∀ b ∈ db.batches, b.id < db.nextBatchId
  batchNodup : (db.batches.map Batch.id).Nodup
  itemIdLt : ∀ s ∈ db.saleItems, s.id < db.nextSaleItemId
  itemNodup : (db.saleItems.map SaleItem.id).Nodup
  itemNonneg : ∀ s ∈ db.saleItems, 0 ≤ s.quantity
  allocPos : ∀ a ∈ db.saleItemBatches, 0 < a.quantity
  allocLink : ∀ a ∈ db.saleItemBatches, ∃ s, findSaleItem db a.saleItemId = some s
      ∧ ∃ b ∈ db.batches, b.id = a.batchId ∧ b.productId = s.productId
  retPos : ∀ r ∈ db.returns, 0 < r.quantity
  retLink : ∀ r ∈ db.returns, ∃ s, findSaleItem db r.saleItemId = some s

theorem inv_empty : Inv emptyDB := by
  refine ⟨?_, ?_, ?_, ?_, ?_, ?_, ?_, ?_, ?_, ?_⟩ <;> simp [emptyDB]

theorem inv_addItem (db : DB) (pid : Nat) (no : String) (q c : Int) (t : Nat)
    (h : Inv db) : Inv (addItem db pid no q c t) := by
  rw [addItem]
  by_cases hq : q ≤ 0
  · rw [if_pos hq]
    exact h
  · rw [if_neg hq]
    constructor
    · intro b hb
      rcases List.mem_append.1 hb with hm | hm
      · exact h.batchNonneg b hm
      · simp only [List.mem_singleton] at hm
        rw [hm]
        simp only []
        omega
    · intro b hb
      rcases List.mem_append.1 hb with hm | hm
      · have := h.batchIdLt b hm
        simp only []
        omega
      · simp only [List.mem_singleton] at hm
        rw [hm]
        simp only []
        omega
    · simp only [List.map_append, List.map_cons, List.map_nil]
      rw [List.nodup_append]
      refine ⟨h.batchNodup, List.nodup_singleton _, ?_⟩
      intro x hx
      have hlt := h.batchIdLt
      simp only [List.mem_map] at hx
      obtain ⟨b, hb, he⟩ := hx
      have := hlt b hb
      simp only [List.mem_singleton]
      omega
    · exact h.itemIdLt
    · exact h.itemNodup
    · exact h.itemNonneg
    · exact h.allocPos
    · intro a ha
      obtain ⟨s, hs, b, hb, hbe, hbp⟩ := h.allocLink a ha
      exact ⟨s, hs, b, List.mem_append.2 (Or.inl hb), hbe, hbp⟩
    · exact h.retPos
    · exact h.retLink

/-- The spec-side plan of one sale line over the current database. -/
def linePlan (db : DB) (pid : Nat) (q : Int) : List (Nat × Int) :=
  fifoPlanSpec q ((sortedLiveBatches db pid).map fun b => (b.id, b.quantity))

/-- Field-level reading of one FIFO deduction call. -/
theorem fifoDeduct_components (db : DB) (pid : Nat) (q : Int) (sid' : Nat) :
    (fifoDeduct db pid q sid').1.batches
        = db.batches.map (fun b =>
            { b with quantity := b.quantity - planSum (linePlan db pid q) b.id })
    ∧ (fifoDeduct db pid q sid').1.saleItems = db.saleItems
    ∧ (fifoDeduct db pid q sid').1.saleItemBatches
        = db.saleItemBatches ++ mkAllocs db.nextAllocId sid' (linePlan db pid q)
    ∧ (fifoDeduct db pid q sid').1.sales = db.sales
    ∧ (fifoDeduct db pid q sid').1.returns = db.returns
    ∧ (fifoDeduct db pid q sid').1.nextBatchId = db.nextBatchId
    ∧ (fifoDeduct db pid q sid').1.nextSaleId = db.nextSaleId
    ∧ (fifoDeduct db pid q sid').1.nextSaleItemId = db.nextSaleItemId
    ∧ (fifoDeduct db pid q sid').1.nextAllocId
        = db.nextAllocId + (linePlan db pid q).length
    ∧ (fifoDeduct db pid q sid').1.nextReturnId = db.nextReturnId := by
  rw [fifoDeduct, fifoLoop_eq]
  exact ⟨rfl, rfl, rfl, rfl, rfl, rfl, rfl, rfl, rfl, rfl⟩

/-- Positive snapshot quantities for the FIFO plan. -/
theorem snap_pos (db : DB) (pid : Nat) :
    ∀ p ∈ (sortedLiveBatches db pid).map (fun b => (b.id, b.quantity)), 0 < p.2 := by
  intro p hp
  obtain ⟨b, _, _, hbq, hpe⟩ := snap_mem db pid p hp
  rw [hpe]
  exact hbq

/-- A FIFO deduction preserves the ledger invariant, when run for an
existing sale item of the same product. -/
theorem inv_fifoDeduct (db : DB) (pid : Nat) (q : Int) (sid' : Nat) (h : Inv db)
    (s0 : SaleItem) (hs0 : findSaleItem db sid' = some s0) (hs0p : s0.productId = pid) :
    Inv (fifoDeduct db pid q sid').1 := by
  obtain ⟨hb, hsi, hsib, hsa, hre, hnb, hns, hnsi, hna, hnr⟩ :=
    fifoDeduct_components db pid q sid'
  constructor
  · exact fifoDeduct_batchNonneg db pid q sid' h.batchNonneg h.batchNodup
  · rw [hb, hnb]
    intro b' hb'
    simp only [List.mem_map] at hb'
    obtain ⟨b, hbm, he⟩ := hb'
    have := h.batchIdLt b hbm
    rw [← he]
    exact this
  · rw [hb, map_quantity_map_id]
    exact h.batchNodup
  · rw [hsi, hnsi]
    exact h.itemIdLt
  · rw [hsi]
    exact h.itemNodup
  · rw [hsi]
    exact h.itemNonneg
  · rw [hsib]
    intro a ha
    rcases List.mem_append.1 ha with hm | hm
    · exact h.allocPos a hm
    · obtain ⟨_, hpl⟩ := mem_mkAllocs _ _ _ a hm
      exact fifoPlanSpec_snd_pos q _ (snap_pos db pid) _ hpl
  · rw [hsib]
    intro a ha
    have hfind_pres : ∀ i, findSaleItem (fifoDeduct db pid q sid').1 i
        = findSaleItem db i := by
      intro i
      rw [findSaleItem, findSaleItem, hsi]
    rcases List.mem_append.1 ha with hm | hm
    · obtain ⟨s, hs, b, hbm, hbe, hbp⟩ := h.allocLink a hm
      refine ⟨s, by rw [hfind_pres]; exact hs,
        { b with quantity := b.quantity - planSum (linePlan db pid q) b.id }, ?_, hbe, hbp⟩
      rw [hb]
      exact List.mem_map_of_mem _ hbm
    · obtain ⟨hsid, hpl⟩ := mem_mkAllocs _ _ _ a hm
      obtain ⟨p0, hp0, hfst, _⟩ := fifoPlanSpec_entry q _ _ hpl
      obtain ⟨b0, hb0, hbp0, _, hpe⟩ := snap_mem db pid p0 hp0
      refine ⟨s0, by rw [hfind_pres, hsid]; exact hs0,
        { b0 with quantity := b0.quantity - planSum (linePlan db pid q) b0.id }, ?_, ?_, ?_⟩
      · rw [hb]
        exact List.mem_map_of_mem _ hb0
      · simp only []
        rw [hpe] at hfst
        exact hfst.symm
      · simp only []
        rw [hbp0, hs0p]
  · rw [hre]
    exact h.retPos
  · rw [hre]
    intro r hr
    obtain ⟨s, hs⟩ := h.retLink r hr
    exact ⟨s, by rw [findSaleItem, hsi]; exact hs⟩

/-- Appending the fresh sale-item row of a cart line preserves the
invariant. -/
theorem inv_itemAppend (acc : DB) (sid : Nat) (l : CartLine) (h : Inv acc)
    (hq : 0 < l.qty) :
    Inv { acc with
      saleItems := acc.saleItems
        ++ [⟨acc.nextSaleItemId, sid, l.productId, l.qty, l.price⟩]
      nextSaleItemId := acc.nextSaleItemId + 1 } := by
  have hfind_pres : ∀ i s, findSaleItem acc i = some s →
      findSaleItem { acc with
        saleItems := acc.saleItems
          ++ [⟨acc.nextSaleItemId, sid, l.productId, l.qty, l.price⟩]
        nextSaleItemId := acc.nextSaleItemId + 1 } i = some s := by
    intro i s hs
    rw [findSaleItem] at hs ⊢
    simp only []
    rw [List.find?_append, hs]
    rfl
  constructor
  · exact h.batchNonneg
  · exact h.batchIdLt
  · exact h.batchNodup
  · intro s hs
    rcases List.mem_append.1 hs with hm | hm
    · have := h.itemIdLt s hm
      simp only []
      omega
    · simp only [List.mem_singleton] at hm
      rw [hm]
      simp only []
      omega
  · simp only [List.map_append, List.map_cons, List.map_nil]
    rw [List.nodup_append]
    refine ⟨h.itemNodup, List.nodup_singleton _, ?_⟩
    intro x hx
    simp only [List.mem_map] at hx
    obtain ⟨s, hsm, he⟩ := hx
    have := h.itemIdLt s hsm
    simp only [List.mem_singleton]
    omega
  · intro s hs
    rcases List.mem_append.1 hs with hm | hm
    · exact h.itemNonneg s hm
    · simp only [List.mem_singleton] at hm
      rw [hm]
      simp only []
      omega
  · exact h.allocPos
  · intro a ha
    obtain ⟨s, hs, b, hbm, hbe, hbp⟩ := h.allocLink a ha
    exact ⟨s, hfind_pres _ s hs, b, hbm, hbe, hbp⟩
  · exact h.retPos
  · intro r hr
    obtain ⟨s, hs⟩ := h.retLink r hr
    exact ⟨s, hfind_pres _ s hs⟩

/-- The fresh sale-item row is the one `findSaleItem` returns for the
fresh id. -/
theorem findSaleItem_fresh (acc : DB) (sid : Nat) (l : CartLine) (h : Inv acc) :
    findSaleItem { acc with
      saleItems := acc.saleItems
        ++ [⟨acc.nextSaleItemId, sid, l.productId, l.qty, l.price⟩]
      nextSaleItemId := acc.nextSaleItemId + 1 } acc.nextSaleItemId
      = some ⟨acc.nextSaleItemId, sid, l.productId, l.qty, l.price⟩ := by
  rw [findSaleItem]
  simp only []
  rw [List.find?_append]
  have hnone : acc.saleItems.find? (fun si => si.id == acc.nextSaleItemId) = none := by
    rw [List.find?_eq_none]
    intro s hs
    have := h.itemIdLt s hs
    simp only [beq_iff_eq]
    omega
  rw [hnone]
  simp

/-- One checkout line preserves the ledger invariant. -/
theorem inv_saleLineStep (sid : Nat) (acc : DB) (l : CartLine) (h : Inv acc)
    (hq : 0 < l.qty) : Inv (saleLineStep sid acc l) := by
  have hacc1 := inv_itemAppend acc sid l h hq
  have hfound := findSaleItem_fresh acc sid l h
  exact inv_fifoDeduct _ l.productId l.qty acc.nextSaleItemId hacc1 _ hfound rfl

/-- The checkout loop preserves the invariant over any cart of
positive-quantity lines. -/
theorem inv_saleFold (sid : Nat) :
    ∀ (cart : List CartLine) (acc : DB), Inv acc → (∀ l ∈ cart, 0 < l.qty) →
      Inv (cart.foldl (saleLineStep sid) acc)
  | [], acc, h, _ => h
  | l :: rest, acc, h, hc => by
    rw [List.foldl_cons]
    exact inv_saleFold sid rest _ (inv_saleLineStep sid acc l h (hc l (by simp)))
      fun x hx => hc x (by simp [hx])

/-- The sale header touches no invariant field. -/
theorem inv_saleHeader (db : DB) (sid : Nat) (total : Int) (h : Inv db) :
    Inv { db with sales := db.sales ++ [⟨sid, total⟩], nextSaleId := sid + 1 } :=
  ⟨h.batchNonneg, h.batchIdLt, h.batchNodup, h.itemIdLt, h.itemNodup, h.itemNonneg,
    h.allocPos, h.allocLink, h.retPos, h.retLink⟩

/-- `checkout` preserves the invariant for carts of positive lines. -/
theorem inv_checkout (db : DB) (cart : List CartLine) (h : Inv db)
    (hcart : ∀ l ∈ cart, 0 < l.qty) : Inv (checkout db cart) := by
  rw [checkout]
  by_cases he : cart.isEmpty
  · rw [if_pos he]
    exact h
  · rw [if_neg he]
    exact inv_saleFold db.nextSaleId cart _ (inv_saleHeader db db.nextSaleId _ h) hcart

/-- Carts built through `add_to_cart` contain only positive
quantities. -/
theorem cart_pos :
    ∀ (lines cart : List CartLine), (∀ l ∈ cart, 0 < l.qty) →
      ∀ l ∈ lines.foldl addToCart cart, 0 < l.qty
  | [], cart, hc => hc
  | x :: rest, cart, hc => by
    rw [List.foldl_cons]
    refine cart_pos rest (addToCart cart x) ?_
    intro l hl
    rw [addToCart] at hl
    by_cases hx : x.qty ≤ 0
    · rw [if_pos hx] at hl
      exact hc l hl
    · rw [if_neg hx] at hl
      rcases List.mem_append.1 hl with hm | hm
      · exact hc l hm
      · simp only [List.mem_singleton] at hm
        rw [hm]
        omega

/-- A `mainproject.py` return preserves the ledger invariant. -/
theorem inv_processReturnMain (db : DB) (siId : Nat) (r : Int) (h : Inv db) :
    Inv (processReturnMain db siId r) := by
  cases hfind : findSaleItem db siId with
  | none =>
    have he : processReturnMain db siId r = db := by
      simp only [processReturnMain]
      rw [hfind]
    rw [he]
    exact h
  | some si =>
    by_cases hcond : r ≤ 0 ∨ si.quantity < r
    · have he : processReturnMain db siId r = db := by
        simp only [processReturnMain]
        rw [hfind]
        simp only [if_pos hcond]
      rw [he]
      exact h
    · rw [processReturnMain_eq db si siId r hfind hcond]
      have hfind' : db.saleItems.find? (fun s => s.id == siId) = some si := hfind
      have hsimem : si ∈ db.saleItems := List.mem_of_find?_eq_some hfind'
      have hsiid : si.id = siId := by
        have := List.find?_some hfind'
        simpa using this
      have hposA : ∀ a ∈ allocsForItem db siId, (0 : Int) ≤ a.quantity := by
        intro a ha
        simp only [allocsForItem, List.mem_insertionSort, List.mem_filter] at ha
        exact le_of_lt (h.allocPos a ha.1)
      have hplanpos := givebackPlan_snd_nonneg r _ hposA
      constructor
      · intro b' hb'
        simp only [List.mem_map] at hb'
        obtain ⟨b, hbm, he⟩ := hb'
        have h1 := h.batchNonneg b hbm
        have h2 := planSum_nonneg (givebackPlan r (allocsForItem db siId)) b.id hplanpos
        rw [← he]
        simp only []
        omega
      · intro b' hb'
        simp only [List.mem_map] at hb'
        obtain ⟨b, hbm, he⟩ := hb'
        have := h.batchIdLt b hbm
        rw [← he]
        exact this
      · show ((db.batches.map _).map Batch.id).Nodup
        rw [map_quantity_map_id]
        exact h.batchNodup
      · intro s' hs'
        simp only [List.mem_map] at hs'
        obtain ⟨s, hsm, he⟩ := hs'
        have := h.itemIdLt s hsm
        rw [← he]
        by_cases hid : s.id = siId <;> simp only [hid, if_pos, if_neg, if_true, if_false] <;>
          simpa [hid] using this
      · show ((db.saleItems.map _).map SaleItem.id).Nodup
        rw [map_adjust_item_id]
        exact h.itemNodup
      · intro s' hs'
        simp only [List.mem_map] at hs'
        obtain ⟨s, hsm, he⟩ := hs'
        rw [← he]
        by_cases hid : s.id = siId
        · have hse : s = si :=
            List.inj_on_of_nodup_map h.itemNodup hsm hsimem (hid.trans hsiid.symm)
          rw [if_pos hid]
          simp only []
          subst hse
          omega
        · rw [if_neg hid]
          exact h.itemNonneg s hsm
      · exact h.allocPos
      · intro a ha
        obtain ⟨s, hs, b, hbm, hbe, hbp⟩ := h.allocLink a ha
        have hs' : db.saleItems.find? (fun x => x.id == a.saleItemId) = some s := hs
        refine ⟨if s.id = siId then { s with quantity := s.quantity - r } else s, ?_,
          { b with quantity := b.quantity
              + planSum (givebackPlan r (allocsForItem db siId)) b.id },
          List.mem_map_of_mem _ hbm, hbe, ?_⟩
        · simp only [findSaleItem]
          rw [find?_id_map_adjust, hs']
          rfl
        · by_cases hid : s.id = siId <;> simp only [hid, if_true, if_false, if_pos, if_neg] <;>
            simpa [hid] using hbp
      · intro rr hrr
        rcases List.mem_append.1 hrr with hm | hm
        · exact h.retPos rr hm
        · simp only [List.mem_singleton] at hm
          rw [hm]
          simp only []
          omega
      · intro rr hrr
        rcases List.mem_append.1 hrr with hm | hm
        · obtain ⟨s, hs⟩ := h.retLink rr hm
          have hs' : db.saleItems.find? (fun x => x.id == rr.saleItemId) = some s := hs
          refine ⟨if s.id = siId then { s with quantity := s.quantity - r } else s, ?_⟩
          simp only [findSaleItem]
          rw [find?_id_map_adjust, hs']
          rfl
        · simp only [List.mem_singleton] at hm
          subst hm
          refine ⟨{ si with quantity := si.quantity - r }, ?_⟩
          rw [findSaleItem]
          rw [find?_id_map_adjust, hfind']
          simp only [Option.map]
          rw [if_pos hsiid]

/-- A `3.py` return preserves the ledger invariant. -/
theorem inv_processReturnV3 (db : DB) (siId : Nat) (q : Int) (t : Nat) (h : Inv db) :
    Inv (processReturnV3 db siId q t) := by
  cases hfind : findSaleItem db siId with
  | none =>
    have he : processReturnV3 db siId q t = db := by
      simp only [processReturnV3]
      rw [hfind]
    rw [he]
    exact h
  | some si =>
    by_cases hq : q ≤ 0
    · have he : processReturnV3 db siId q t = db := by
        simp only [processReturnV3]
        rw [hfind]
        simp only [if_pos hq]
      rw [he]
      exact h
    · have hq' : 0 < q := by omega
      have hret : ∀ rr : ReturnRow,
          rr ∈ db.returns ++ [⟨db.nextReturnId, siId, q⟩] → 0 < rr.quantity := by
        intro rr hrr
        rcases List.mem_append.1 hrr with hm | hm
        · exact h.retPos rr hm
        · simp only [List.mem_singleton] at hm
          rw [hm]
          simp only []
          omega
      cases hmb : mostRecentBatch db si.productId with
      | some b =>
        rw [processReturnV3_eq_some db si siId q t b hfind hq' hmb]
        constructor
        · exact updateBatchQty_nonneg db.batches b.id q h.batchNonneg (by omega)
        · intro b' hb'
          have hmm : b'.id ∈ (updateBatchQty db.batches b.id q).map Batch.id :=
            List.mem_map_of_mem Batch.id hb'
          rw [updateBatchQty_map_id] at hmm
          simp only [List.mem_map] at hmm
          obtain ⟨b0, hb0, he⟩ := hmm
          have := h.batchIdLt b0 hb0
          simp only []
          omega
        · show ((updateBatchQty db.batches b.id q).map Batch.id).Nodup
          rw [updateBatchQty_map_id]
          exact h.batchNodup
        · exact h.itemIdLt
        · exact h.itemNodup
        · exact h.itemNonneg
        · exact h.allocPos
        · intro a ha
          obtain ⟨s, hs, b0, hb0, hbe, hbp⟩ := h.allocLink a ha
          obtain ⟨b', hb', he1, he2⟩ := mem_updateBatchQty db.batches b.id q b0 hb0
          exact ⟨s, hs, b', hb', he1.trans hbe, he2.trans hbp⟩
        · exact hret
        · intro rr hrr
          rcases List.mem_append.1 hrr with hm | hm
          · exact h.retLink rr hm
          · simp only [List.mem_singleton] at hm
            subst hm
            exact ⟨si, hfind⟩
      | none =>
        rw [processReturnV3_eq_none db si siId q t hfind hq' hmb]
        constructor
        · intro b' hb'
          rcases List.mem_append.1 hb' with hm | hm
          · exact h.batchNonneg b' hm
          · simp only [List.mem_singleton] at hm
            rw [hm]
            simp only []
            omega
        · intro b' hb'
          rcases List.mem_append.1 hb' with hm | hm
          · have := h.batchIdLt b' hm
            simp only []
            omega
          · simp only [List.mem_singleton] at hm
            rw [hm]
            simp only []
            omega
        · simp only [List.map_append, List.map_cons, List.map_nil]
          rw [List.nodup_append]
          refine ⟨h.batchNodup, List.nodup_singleton _, ?_⟩
          intro x hx
          simp only [List.mem_map] at hx
          obtain ⟨b0, hb0, he⟩ := hx
          have := h.batchIdLt b0 hb0
          simp only [List.mem_singleton]
          omega
        · exact h.itemIdLt
        · exact h.itemNodup
        · exact h.itemNonneg
        · exact h.allocPos
        · intro a ha
          obtain ⟨s, hs, b0, hb0, hbe, hbp⟩ := h.allocLink a ha
          exact ⟨s, hs, b0, List.mem_append.2 (Or.inl hb0), hbe, hbp⟩
        · exact hret
        · intro rr hrr
          rcases List.mem_append.1 hrr with hm | hm
          · exact h.retLink rr hm
          · simp only [List.mem_singleton] at hm
            subst hm
            exact ⟨si, hfind⟩

/-- Every UI operation preserves the ledger invariant. -/
theorem inv_applyOp (db : DB) (op : Op) (h : Inv db) : Inv (applyOp db op) := by
  cases op with
  | intake pid no q c t => exact inv_addItem db pid no q c t h
  | sale lines =>
    exact inv_checkout db _ h (cart_pos lines [] (by intro l hl; simp at hl))
  | retMain siId q => exact inv_processReturnMain db siId q h
  | retV3 siId q t => exact inv_processReturnV3 db siId q t h

/-- Every database reachable from the empty ledger satisfies the
invariant. -/
theorem inv_runOps : ∀ (ops : List Op), Inv (runOps ops) := by
  have hgen : ∀ (ops : List Op) (db : DB), Inv db → Inv (ops.foldl applyOp db) := by
    intro ops
    induction ops with
    | nil => exact fun db h => h
    | cons op rest ih =>
      intro db h
      rw [List.foldl_cons]
      exact ih _ (inv_applyOp db op h)
  exact fun ops => hgen ops emptyDB inv_empty

/-- C4: starting from the empty ledger, after any sequence of intake,
sale and return operations every batch quantity is nonnegative —
sale-time consumption never pushes a batch below zero and returns only
increment batch quantities. -/
theorem runOps_batch_nonneg (ops : List Op) :
    ∀ b ∈ (runOps ops).batches, 0 ≤ b.quantity :=
  (inv_runOps ops).batchNonneg

/-- Witness for C4: a concrete history with an overdrawn sale and both
return variants still leaves every batch nonnegative. -/
theorem runOps_batch_nonneg_witness :
    (⟨1, 1, "L1", 0, 10, 1⟩ : Batch)
        ∈ (runOps [.intake 1 "L1" 1 10 1, .sale [⟨1, 2, 3⟩]]).batches
    ∧ (0 : Int) ≤ (⟨1, 1, "L1", 0, 10, 1⟩ : Batch).quantity :=
  ⟨by decide, runOps_batch_nonneg [.intake 1 "L1" 1 10 1, .sale [⟨1, 2, 3⟩]]
    ⟨1, 1, "L1", 0, 10, 1⟩ (by decide)⟩

/-! ## Conservation bookkeeping -/

/-- Operations of the `mainproject.py` pipeline (its intake, checkout
and return); the `3.py` return variant is excluded. -/
def isMainOp : Op → Bool
  | .retV3 _ _ _ => false
  | _ => true

/-- Total allocated quantity, grouped per sale item of one product. -/
def itemAllocSum (db : DB) (pid : Nat) : Int :=
  ((db.saleItems.filter fun si => si.productId == pid).map
    (fun si => allocTotal db si.id)).sum

/-- Total quantity actually restocked by `mainproject.py` returns,
grouped per sale item of one product: each return row gives back
`min(quantity, total allocated)` (the restock loop's water-filling
total). -/
def itemRestockSum (db : DB) (pid : Nat) : Int :=
  ((db.saleItems.filter fun si => si.productId == pid).map
    (fun si => ((db.returns.filter fun r => r.saleItemId == si.id).map
      (fun r => min r.quantity (allocTotal db si.id))).sum)).sum

/-- On-hand stock as a function of the batch rows. -/
def sumQtyP (bs : List Batch) (pid : Nat) : Int :=
  ((bs.filter fun b => b.productId == pid).map (·.quantity)).sum

theorem onHand_eq_sumQtyP (db : DB) (pid : Nat) : onHand db pid = sumQtyP db.batches pid := rfl

/-- Allocated quantity of one sale item as a function of the
allocation rows. -/
def allocSumFor (allocs : List SaleItemBatch) (siId : Nat) : Int :=
  ((allocs.filter fun a => a.saleItemId == siId).map (·.quantity)).sum

theorem allocTotal_eq_allocSumFor (db : DB) (siId : Nat) :
    allocTotal db siId = allocSumFor db.saleItemBatches siId := rfl

theorem intakeSum_append (l1 l2 : List Op) (pid : Nat) :
    intakeSum (l1 ++ l2) pid = intakeSum l1 pid + intakeSum l2 pid := by
  induction l1 with
  | nil => simp [intakeSum]
  | cons op rest ih =>
    rw [List.cons_append, intakeSum, List.foldr_cons, intakeSum, List.foldr_cons]
    show (match op with
      | .intake p _ q _ _ => if p = pid ∧ 0 < q then q + intakeSum (rest ++ l2) pid
          else intakeSum (rest ++ l2) pid
      | _ => intakeSum (rest ++ l2) pid)
      = (match op with
        | .intake p _ q _ _ => if p = pid ∧ 0 < q then q + intakeSum rest pid
            else intakeSum rest pid
        | _ => intakeSum rest pid) + intakeSum l2 pid
    cases op <;> simp only [ih]
    case intake p no q c t =>
      by_cases hc : p = pid ∧ 0 < q
      · rw [if_pos hc, if_pos hc]
        omega
      · rw [if_neg hc, if_neg hc]

theorem intakeSum_single_intake (pid0 : Nat) (no : String) (q c : Int) (t : Nat)
    (pid : Nat) :
    intakeSum [.intake pid0 no q c t] pid = if pid0 = pid ∧ 0 < q then q else 0 := by
  rw [intakeSum, List.foldr_cons, List.foldr_nil]
  show (if pid0 = pid ∧ 0 < q then q + 0 else 0) = _
  by_cases hc : pid0 = pid ∧ 0 < q
  · rw [if_pos hc, if_pos hc]
    omega
  · rw [if_neg hc, if_neg hc]

theorem intakeSum_single_notintake (op : Op) (pid : Nat)
    (h : ∀ pid0 no q c t, op ≠ .intake pid0 no q c t) :
    intakeSum [op] pid = 0 := by
  cases op with
  | intake pid0 no q c t => exact absurd rfl (h pid0 no q c t)
  | sale lines => rfl
  | retMain a b => rfl
  | retV3 a b c => rfl

/-- Sum of a one-hot indicator over a keyed list with distinct keys. -/
theorem sum_map_if_eq_key {α : Type} (l : List α) (key : α → Nat) (c : Nat) (t : Int)
    (hn : (l.map key).Nodup) :
    (l.map fun x => if key x = c then t else 0).sum
      = if c ∈ l.map key then t else 0 := by
  induction l with
  | nil => simp
  | cons x rest ih =>
    simp only [List.map_cons, List.nodup_cons] at hn
    rw [List.map_cons, List.sum_cons, ih hn.2, List.map_cons]
    by_cases hx : key x = c
    · rw [if_pos hx]
      have hnc : c ∉ rest.map key := hx ▸ hn.1
      rw [if_neg hnc, if_pos (by rw [hx]; exact List.mem_cons_self _ _)]
      omega
    · rw [if_neg hx]
      by_cases hc : c ∈ rest.map key
      · rw [if_pos hc, if_pos (List.mem_cons_of_mem _ hc)]
        omega
      · rw [if_neg hc, if_neg (by
          intro hm
          rcases List.mem_cons.1 hm with he | hm'
          · exact hx he.symm
          · exact hc hm')]
        omega

/-- Over batches with distinct ids, summing a plan whose targets are
all batches of product `pid0` gives the plan total on `pid0` and zero
elsewhere. -/
theorem sum_filter_planSum_of_targets (bs : List Batch) (plan : List (Nat × Int))
    (pid0 : Nat) (hn : (bs.map Batch.id).Nodup)
    (htgt : ∀ pr ∈ plan, ∃ b ∈ bs, b.id = pr.1 ∧ b.productId = pid0) (pid : Nat) :
    ((bs.filter fun b => b.productId == pid).map fun b => planSum plan b.id).sum
      = if pid = pid0 then (plan.map Prod.snd).sum else 0 := by
  by_cases hc : pid = pid0
  · subst hc
    rw [if_pos rfl]
    refine sum_map_planSum _ plan ?_ ?_
    · exact List.Nodup.sublist
        (List.Sublist.map Batch.id (List.filter_sublist bs)) hn
    · intro pr hpr
      obtain ⟨b, hb, hbe, hbp⟩ := htgt pr hpr
      have : b ∈ bs.filter fun b => b.productId == pid := by
        rw [List.mem_filter]
        exact ⟨hb, by simpa using hbp⟩
      rw [← hbe]
      exact List.mem_map_of_mem Batch.id this
  · rw [if_neg hc]
    have hz : ∀ b ∈ bs.filter (fun b => b.productId == pid), planSum plan b.id = 0 := by
      intro b hb
      rw [List.mem_filter] at hb
      refine planSum_eq_zero plan b.id fun pr hpr he => ?_
      obtain ⟨b0, hb0, hbe, hbp⟩ := htgt pr hpr
      have hbb0 : b = b0 := eq_of_mem_of_id_eq hn hb.1 hb0 (by omega)
      apply hc
      have : b.productId = pid := by simpa using hb.2
      rw [← this, hbb0, hbp]
    calc ((bs.filter fun b => b.productId == pid).map fun b => planSum plan b.id).sum
        = ((bs.filter fun b => b.productId == pid).map fun _ => (0 : Int)).sum :=
          congrArg List.sum (List.map_congr_left hz)
      _ = 0 := by simp

/-- A fresh batch row adds its quantity to its product's on-hand sum. -/
theorem sumQtyP_append (bs : List Batch) (nb : Batch) (pid : Nat) :
    sumQtyP (bs ++ [nb]) pid
      = sumQtyP bs pid + (if nb.productId = pid then nb.quantity else 0) := by
  rw [sumQtyP, sumQtyP, List.filter_append, List.map_append, List.sum_append]
  by_cases hc : nb.productId = pid
  · rw [List.filter_cons, if_pos (by simpa using hc)]
    simp [hc]
  · rw [List.filter_cons, if_neg (by simpa using hc)]
    simp [hc]

/-- Applying a subtraction plan whose targets all lie in product
`pid0` lowers exactly that product's on-hand sum by the plan total. -/
theorem sumQtyP_map_sub (bs : List Batch) (plan : List (Nat × Int)) (pid0 : Nat)
    (hn : (bs.map Batch.id).Nodup)
    (htgt : ∀ pr ∈ plan, ∃ b ∈ bs, b.id = pr.1 ∧ b.productId = pid0) (pid : Nat) :
    sumQtyP (bs.map fun b => { b with quantity := b.quantity - planSum plan b.id }) pid
      = sumQtyP bs pid - (if pid = pid0 then (plan.map Prod.snd).sum else 0) := by
  rw [sumQtyP, List.filter_map]
  have hpe : ((fun b : Batch => b.productId == pid) ∘ fun b =>
      { b with quantity := b.quantity - planSum plan b.id })
      = fun b : Batch => b.productId == pid := rfl
  rw [hpe, List.map_map]
  have hqe : ((fun b : Batch => b.quantity) ∘ fun b =>
      { b with quantity := b.quantity - planSum plan b.id })
      = fun b : Batch => b.quantity - planSum plan b.id := rfl
  rw [hqe, sumMapSub, sum_filter_planSum_of_targets bs plan pid0 hn htgt pid]
  rfl

/-- Applying an addition plan whose targets all lie in product `pid0`
raises exactly that product's on-hand sum by the plan total. -/
theorem sumQtyP_map_add (bs : List Batch) (plan : List (Nat × Int)) (pid0 : Nat)
    (hn : (bs.map Batch.id).Nodup)
    (htgt : ∀ pr ∈ plan, ∃ b ∈ bs, b.id = pr.1 ∧ b.productId = pid0) (pid : Nat) :
    sumQtyP (bs.map fun b => { b with quantity := b.quantity + planSum plan b.id }) pid
      = sumQtyP bs pid + (if pid = pid0 then (plan.map Prod.snd).sum else 0) := by
  rw [sumQtyP, List.filter_map]
  have hpe : ((fun b : Batch => b.productId == pid) ∘ fun b =>
      { b with quantity := b.quantity + planSum plan b.id })
      = fun b : Batch => b.productId == pid := rfl
  rw [hpe, List.map_map]
  have hqe : ((fun b : Batch => b.quantity) ∘ fun b =>
      { b with quantity := b.quantity + planSum plan b.id })
      = fun b : Batch => b.quantity + planSum plan b.id := rfl
  rw [hqe, List.sum_map_add, sum_filter_planSum_of_targets bs plan pid0 hn htgt pid]
  rfl

theorem allocSumFor_append (l1 l2 : List SaleItemBatch) (x : Nat) :
    allocSumFor (l1 ++ l2) x = allocSumFor l1 x + allocSumFor l2 x := by
  rw [allocSumFor, allocSumFor, allocSumFor, List.filter_append, List.map_append,
    List.sum_append]

theorem allocSumFor_mkAllocs :
    ∀ (plan : List (Nat × Int)) (i sid x : Nat),
      allocSumFor (mkAllocs i sid plan) x
        = if sid = x then (plan.map Prod.snd).sum else 0 := by
  intro plan
  induction plan with
  | nil =>
    intro i sid x
    rw [mkAllocs, allocSumFor]
    simp
  | cons pr rest ih =>
    intro i sid x
    obtain ⟨bid, t⟩ := pr
    rw [mkAllocs, allocSumFor, List.filter_cons]
    by_cases hc : sid = x
    · rw [if_pos (by simpa using hc)]
      have := ih (i + 1) sid x
      rw [allocSumFor] at this
      rw [List.map_cons, List.sum_cons, this, if_pos hc, if_pos hc]
      simp
    · rw [if_neg (by simpa using hc)]
      have := ih (i + 1) sid x
      rw [allocSumFor] at this
      rw [this, if_neg hc, if_neg hc]

/-- No existing allocation row points at the yet-unissued sale-item
id. -/
theorem allocSumFor_fresh (db : DB) (h : Inv db) :
    allocSumFor db.saleItemBatches db.nextSaleItemId = 0 := by
  rw [allocSumFor]
  have he : db.saleItemBatches.filter
      (fun a => a.saleItemId == db.nextSaleItemId) = [] := by
    rw [List.filter_eq_nil_iff]
    intro a ha
    obtain ⟨s, hs, _⟩ := h.allocLink a ha
    have hs' : db.saleItems.find? (fun x => x.id == a.saleItemId) = some s := hs
    have h1 : s.id = a.saleItemId := by simpa using List.find?_some hs'
    have h2 := h.itemIdLt s (List.mem_of_find?_eq_some hs')
    simp only [beq_iff_eq]
    omega
  rw [he]
  rfl

/-- No existing return row points at the yet-unissued sale-item id. -/
theorem returns_fresh (db : DB) (h : Inv db) :
    db.returns.filter (fun r => r.saleItemId == db.nextSaleItemId) = [] := by
  rw [List.filter_eq_nil_iff]
  intro r hr
  obtain ⟨s, hs⟩ := h.retLink r hr
  have hs' : db.saleItems.find? (fun x => x.id == r.saleItemId) = some s := hs
  have h1 : s.id = r.saleItemId := by simpa using List.find?_some hs'
  have h2 := h.itemIdLt s (List.mem_of_find?_eq_some hs')
  simp only [beq_iff_eq]
  omega

/-- The conservation bookkeeping of the `mainproject.py` pipeline:
on-hand stock equals accepted intakes minus per-item allocations plus
per-item restocks. -/
def consAt (ops : List Op) (db : DB) (pid : Nat) : Prop :=
  onHand db pid = intakeSum ops pid - itemAllocSum db pid + itemRestockSum db pid

theorem cons_addItem (db : DB) (pid0 : Nat) (no : String) (q c : Int) (t : Nat)
    (ops : List Op) (pid : Nat) (h : consAt ops db pid) :
    consAt (ops ++ [.intake pid0 no q c t]) (addItem db pid0 no q c t) pid := by
  rw [consAt, intakeSum_append, intakeSum_single_intake]
  rw [consAt] at h
  by_cases hq : q ≤ 0
  · have he : addItem db pid0 no q c t = db := by
      rw [addItem, if_pos hq]
    rw [he, if_neg (by omega)]
    omega
  · have he : addItem db pid0 no q c t
        = { db with
            batches := db.batches ++ [⟨db.nextBatchId, pid0, no, q, c, t⟩]
            nextBatchId := db.nextBatchId + 1 } := by
      rw [addItem, if_neg hq]
    rw [he]
    have h1 : onHand { db with
        batches := db.batches ++ [⟨db.nextBatchId, pid0, no, q, c, t⟩]
        nextBatchId := db.nextBatchId + 1 } pid
        = sumQtyP (db.batches ++ [⟨db.nextBatchId, pid0, no, q, c, t⟩]) pid := rfl
    have h2 : itemAllocSum { db with
        batches := db.batches ++ [⟨db.nextBatchId, pid0, no, q, c, t⟩]
        nextBatchId := db.nextBatchId + 1 } pid = itemAllocSum db pid := rfl
    have h3 : itemRestockSum { db with
        batches := db.batches ++ [⟨db.nextBatchId, pid0, no, q, c, t⟩]
        nextBatchId := db.nextBatchId + 1 } pid = itemRestockSum db pid := rfl
    rw [h1, h2, h3, sumQtyP_append, ← onHand_eq_sumQtyP]
    simp only []
    by_cases hc : pid0 = pid
    · rw [if_pos hc, if_pos (by exact ⟨hc, by omega⟩)]
      omega
    · rw [if_neg hc, if_neg (by intro hcc; exact hc hcc.1)]
      omega

/-- Closed form of one checkout line. -/
theorem saleLineStep_eq (sid : Nat) (acc : DB) (l : CartLine) :
    saleLineStep sid acc l
      = { acc with
          batches := acc.batches.map fun b =>
            { b with quantity := b.quantity
                - planSum (linePlan acc l.productId l.qty) b.id }
          saleItems := acc.saleItems
            ++ [⟨acc.nextSaleItemId, sid, l.productId, l.qty, l.price⟩]
          saleItemBatches := acc.saleItemBatches
            ++ mkAllocs acc.nextAllocId acc.nextSaleItemId (linePlan acc l.productId l.qty)
          nextSaleItemId := acc.nextSaleItemId + 1
          nextAllocId := acc.nextAllocId + (linePlan acc l.productId l.qty).length } := by
  simp only [saleLineStep]
  rw [fifoDeduct, fifoLoop_eq]
  rfl

/-- Every line-plan target is a batch of the line's product. -/
theorem linePlan_targets (acc : DB) (pid0 : Nat) (q : Int) :
    ∀ pr ∈ linePlan acc pid0 q, ∃ b ∈ acc.batches, b.id = pr.1 ∧ b.productId = pid0 := by
  intro pr hpr
  obtain ⟨p0, hp0, hfst, _⟩ := fifoPlanSpec_entry q _ pr hpr
  obtain ⟨b, hb, hbp, _, hpe⟩ := snap_mem acc pid0 p0 hp0
  refine ⟨b, hb, ?_, hbp⟩
  rw [hpe] at hfst
  simp only [] at hfst
  omega

theorem saleLineStep_onHand (sid : Nat) (acc : DB) (l : CartLine) (hInv : Inv acc)
    (pid : Nat) :
    onHand (saleLineStep sid acc l) pid
      = onHand acc pid
        - (if pid = l.productId
            then ((linePlan acc l.productId l.qty).map Prod.snd).sum else 0) := by
  have h0 : onHand (saleLineStep sid acc l) pid
      = sumQtyP (acc.batches.map fun b =>
          { b with quantity := b.quantity
              - planSum (linePlan acc l.productId l.qty) b.id }) pid := by
    rw [saleLineStep_eq]
    rfl
  rw [h0, sumQtyP_map_sub acc.batches _ l.productId hInv.batchNodup
    (linePlan_targets acc l.productId l.qty) pid, ← onHand_eq_sumQtyP]

theorem saleLineStep_itemAllocSum (sid : Nat) (acc : DB) (l : CartLine)
    (hInv : Inv acc) (pid : Nat) :
    itemAllocSum (saleLineStep sid acc l) pid
      = itemAllocSum acc pid
        + (if pid = l.productId
            then ((linePlan acc l.productId l.qty).map Prod.snd).sum else 0) := by
  have h0 : itemAllocSum (saleLineStep sid acc l) pid
      = (((acc.saleItems
            ++ [(⟨acc.nextSaleItemId, sid, l.productId, l.qty, l.price⟩ : SaleItem)]).filter
              fun si => si.productId == pid).map
          (fun si => allocSumFor
            (acc.saleItemBatches
              ++ mkAllocs acc.nextAllocId acc.nextSaleItemId
                  (linePlan acc l.productId l.qty)) si.id)).sum := by
    rw [saleLineStep_eq]
    rfl
  rw [h0, List.filter_append, List.map_append, List.sum_append]
  have hold : ((acc.saleItems.filter fun si => si.productId == pid).map
      (fun si => allocSumFor
        (acc.saleItemBatches
          ++ mkAllocs acc.nextAllocId acc.nextSaleItemId
              (linePlan acc l.productId l.qty)) si.id)).sum
      = itemAllocSum acc pid := by
    rw [itemAllocSum]
    refine congrArg List.sum (List.map_congr_left ?_)
    intro si hsi
    have hlt := hInv.itemIdLt si (List.mem_filter.1 hsi).1
    rw [allocSumFor_append, allocSumFor_mkAllocs, if_neg (by omega), add_zero,
      ← allocTotal_eq_allocSumFor]
  have hnew : (([(⟨acc.nextSaleItemId, sid, l.productId, l.qty, l.price⟩ : SaleItem)].filter
        fun si => si.productId == pid).map
      (fun si => allocSumFor
        (acc.saleItemBatches
          ++ mkAllocs acc.nextAllocId acc.nextSaleItemId
              (linePlan acc l.productId l.qty)) si.id)).sum
      = if pid = l.productId
          then ((linePlan acc l.productId l.qty).map Prod.snd).sum else 0 := by
    rw [List.filter_cons]
    by_cases hc : l.productId = pid
    · rw [if_pos (by simpa using hc)]
      rw [List.filter_nil, List.map_cons, List.map_nil, List.sum_cons, List.sum_nil]
      rw [allocSumFor_append, allocSumFor_mkAllocs, if_pos rfl,
        allocSumFor_fresh acc hInv, if_pos hc.symm]
      omega
    · rw [if_neg (by simpa using hc), List.filter_nil, List.map_nil, List.sum_nil,
        if_neg (fun he => hc he.symm)]
  rw [hold, hnew]

theorem saleLineStep_itemRestockSum (sid : Nat) (acc : DB) (l : CartLine)
    (hInv : Inv acc) (pid : Nat) :
    itemRestockSum (saleLineStep sid acc l) pid = itemRestockSum acc pid := by
  have h0 : itemRestockSum (saleLineStep sid acc l) pid
      = (((acc.saleItems
            ++ [(⟨acc.nextSaleItemId, sid, l.productId, l.qty, l.price⟩ : SaleItem)]).filter
              fun si => si.productId == pid).map
          (fun si => ((acc.returns.filter fun r => r.saleItemId == si.id).map
            (fun r => min r.quantity
              (allocSumFor
                (acc.saleItemBatches
                  ++ mkAllocs acc.nextAllocId acc.nextSaleItemId
                      (linePlan acc l.productId l.qty)) si.id))).sum)).sum := by
    rw [saleLineStep_eq]
    rfl
  rw [h0, List.filter_append, List.map_append, List.sum_append]
  have hold : ((acc.saleItems.filter fun si => si.productId == pid).map
      (fun si => ((acc.returns.filter fun r => r.saleItemId == si.id).map
        (fun r => min r.quantity
          (allocSumFor
            (acc.saleItemBatches
              ++ mkAllocs acc.nextAllocId acc.nextSaleItemId
                  (linePlan acc l.productId l.qty)) si.id))).sum)).sum
      = itemRestockSum acc pid := by
    rw [itemRestockSum]
    refine congrArg List.sum (List.map_congr_left ?_)
    intro si hsi
    have hlt := hInv.itemIdLt si (List.mem_filter.1 hsi).1
    refine congrArg List.sum (List.map_congr_left ?_)
    intro r _
    rw [allocSumFor_append, allocSumFor_mkAllocs, if_neg (by omega), add_zero,
      ← allocTotal_eq_allocSumFor]
  have hnew : (([(⟨acc.nextSaleItemId, sid, l.productId, l.qty, l.price⟩ : SaleItem)].filter
        fun si => si.productId == pid).map
      (fun si => ((acc.returns.filter fun r => r.saleItemId == si.id).map
        (fun r => min r.quantity
          (allocSumFor
            (acc.saleItemBatches
              ++ mkAllocs acc.nextAllocId acc.nextSaleItemId
                  (linePlan acc l.productId l.qty)) si.id))).sum)).sum = 0 := by
    rw [List.filter_cons]
    by_cases hc : l.productId = pid
    · rw [if_pos (by simpa using hc)]
      rw [List.filter_nil, List.map_cons, List.map_nil, List.sum_cons, List.sum_nil]
      have hfr : acc.returns.filter
          (fun r => r.saleItemId
            == (⟨acc.nextSaleItemId, sid, l.productId, l.qty, l.price⟩ : SaleItem).id)
          = [] := returns_fresh acc hInv
      rw [hfr]
      simp
    · rw [if_neg (by simpa using hc), List.filter_nil, List.map_nil, List.sum_nil]
  rw [hold, hnew, add_zero]

/-- One checkout line preserves the conservation bookkeeping. -/
theorem cons_saleLineStep (sid : Nat) (acc : DB) (l : CartLine) (hInv : Inv acc)
    (ops : List Op) (pid : Nat) (h : consAt ops acc pid) :
    consAt ops (saleLineStep sid acc l) pid := by
  rw [consAt] at h ⊢
  rw [saleLineStep_onHand sid acc l hInv pid,
    saleLineStep_itemAllocSum sid acc l hInv pid,
    saleLineStep_itemRestockSum sid acc l hInv pid]
  omega

/-- A `mainproject.py` return preserves the conservation bookkeeping. -/
theorem cons_processReturnMain (db : DB) (siId : Nat) (r : Int) (hInv : Inv db)
    (ops : List Op) (pid : Nat) (h : consAt ops db pid) :
    consAt ops (processReturnMain db siId r) pid := by
  cases hfind : findSaleItem db siId with
  | none =>
    have he : processReturnMain db siId r = db := by
      simp only [processReturnMain]
      rw [hfind]
    rw [he]
    exact h
  | some si =>
    by_cases hcond : r ≤ 0 ∨ si.quantity < r
    · have he : processReturnMain db siId r = db := by
        simp only [processReturnMain]
        rw [hfind]
        simp only [if_pos hcond]
      rw [he]
      exact h
    · have hfind' : db.saleItems.find? (fun s => s.id == siId) = some si := hfind
      have hsimem : si ∈ db.saleItems := List.mem_of_find?_eq_some hfind'
      have hsiid : si.id = siId := by simpa using List.find?_some hfind'
      have hposA : ∀ a ∈ allocsForItem db siId, (0 : Int) ≤ a.quantity := by
        intro a ha
        simp only [allocsForItem, List.mem_insertionSort, List.mem_filter] at ha
        exact le_of_lt (hInv.allocPos a ha.1)
      have hallocsum : ((allocsForItem db siId).map (·.quantity)).sum
          = allocTotal db siId := by
        have hperm : (allocsForItem db siId).Perm
            (db.saleItemBatches.filter fun a => a.saleItemId == siId) :=
          List.perm_insertionSort _ _
        exact List.Perm.sum_eq (hperm.map _)
      have hm : ((givebackPlan r (allocsForItem db siId)).map Prod.snd).sum
          = min r (allocTotal db siId) := by
        rw [givebackPlan_total r _ (by omega) hposA, hallocsum]
      have hfid : ∀ s : SaleItem,
          (if s.id = siId then { s with quantity := s.quantity - r } else s).id
            = s.id := by
        intro s
        by_cases hid : s.id = siId <;> simp [hid]
      have hfprod : ∀ s : SaleItem,
          (if s.id = siId then { s with quantity := s.quantity - r } else s).productId
            = s.productId := by
        intro s
        by_cases hid : s.id = siId <;> simp [hid]
      have hfc : db.saleItems.filter
          ((fun s : SaleItem => s.productId == pid) ∘ fun s =>
            if s.id = siId then { s with quantity := s.quantity - r } else s)
          = db.saleItems.filter fun s => s.productId == pid :=
        List.filter_congr fun s _ => by rw [Function.comp, hfprod s]
      -- on-hand change
      have honh : onHand (processReturnMain db siId r) pid
          = onHand db pid
            + (if pid = si.productId then min r (allocTotal db siId) else 0) := by
        have h0 : onHand (processReturnMain db siId r) pid
            = sumQtyP (db.batches.map fun b =>
                { b with quantity := b.quantity
                    + planSum (givebackPlan r (allocsForItem db siId)) b.id }) pid := by
          rw [processReturnMain_eq db si siId r hfind hcond]
          rfl
        have htg : ∀ pr ∈ givebackPlan r (allocsForItem db siId),
            ∃ b ∈ db.batches, b.id = pr.1 ∧ b.productId = si.productId := by
          intro pr hpr
          obtain ⟨a, ha, he⟩ := givebackPlan_fst_mem r _ pr hpr
          have ha' : a ∈ db.saleItemBatches ∧ a.saleItemId = siId := by
            simp only [allocsForItem, List.mem_insertionSort, List.mem_filter,
              beq_iff_eq] at ha
            exact ha
          obtain ⟨s, hs, b, hb, hbe, hbp⟩ := hInv.allocLink a ha'.1
          rw [ha'.2, hfind] at hs
          have hse : si = s := by injection hs
          exact ⟨b, hb, by omega, by rw [hbp, ← hse]⟩
        rw [h0, sumQtyP_map_add db.batches _ si.productId hInv.batchNodup htg pid,
          ← onHand_eq_sumQtyP, hm]
      -- allocation sums unchanged
      have hallo : itemAllocSum (processReturnMain db siId r) pid
          = itemAllocSum db pid := by
        have h0 : itemAllocSum (processReturnMain db siId r) pid
            = (((db.saleItems.map fun s =>
                  if s.id = siId then { s with quantity := s.quantity - r } else s).filter
                    fun s => s.productId == pid).map
                (fun s => allocSumFor db.saleItemBatches s.id)).sum := by
          rw [processReturnMain_eq db si siId r hfind hcond]
          rfl
        rw [h0, List.filter_map, hfc, List.map_map, itemAllocSum]
        refine congrArg List.sum (List.map_congr_left ?_)
        intro s _
        rw [Function.comp]
        rw [hfid s, ← allocTotal_eq_allocSumFor]
      -- restock sums gain the new return row
      have hrest : itemRestockSum (processReturnMain db siId r) pid
          = itemRestockSum db pid
            + (if pid = si.productId then min r (allocTotal db siId) else 0) := by
        have h0 : itemRestockSum (processReturnMain db siId r) pid
            = (((db.saleItems.map fun s =>
                  if s.id = siId then { s with quantity := s.quantity - r } else s).filter
                    fun s => s.productId == pid).map
                (fun s => (((db.returns ++ [(⟨db.nextReturnId, siId, r⟩ : ReturnRow)]).filter
                    fun rr => rr.saleItemId == s.id).map
                  (fun rr => min rr.quantity (allocSumFor db.saleItemBatches s.id))).sum)).sum := by
          rw [processReturnMain_eq db si siId r hfind hcond]
          rfl
        rw [h0, List.filter_map, hfc, List.map_map]
        have hpoint : ∀ s ∈ db.saleItems.filter (fun s => s.productId == pid),
            ((fun s => (((db.returns ++ [(⟨db.nextReturnId, siId, r⟩ : ReturnRow)]).filter
                fun rr => rr.saleItemId == s.id).map
              (fun rr => min rr.quantity (allocSumFor db.saleItemBatches s.id))).sum) ∘
              fun s => if s.id = siId then { s with quantity := s.quantity - r } else s) s
            = ((db.returns.filter fun rr => rr.saleItemId == s.id).map
                (fun rr => min rr.quantity (allocTotal db s.id))).sum
              + (if s.id = siId then min r (allocTotal db siId) else 0) := by
          intro s _
          rw [Function.comp]
          rw [hfid s, List.filter_append, List.map_append, List.sum_append,
            ← allocTotal_eq_allocSumFor]
          by_cases hid : s.id = siId
          · rw [List.filter_cons]
            rw [if_pos (by simpa using hid.symm)]
            rw [List.filter_nil, List.map_cons, List.map_nil, List.sum_cons,
              List.sum_nil, if_pos hid]
            simp only []
            rw [hid]
            omega
          · rw [List.filter_cons]
            rw [if_neg (by simpa using fun he => hid he.symm)]
            rw [List.filter_nil, List.map_nil, List.sum_nil, if_neg hid]
        rw [congrArg List.sum (List.map_congr_left hpoint), List.sum_map_add]
        have h1 : ((db.saleItems.filter fun s => s.productId == pid).map
            (fun s => ((db.returns.filter fun rr => rr.saleItemId == s.id).map
              (fun rr => min rr.quantity (allocTotal db s.id))).sum)).sum
            = itemRestockSum db pid := rfl
        have hnodupf : ((db.saleItems.filter fun s => s.productId == pid).map
            SaleItem.id).Nodup :=
          List.Nodup.sublist
            (List.Sublist.map SaleItem.id (List.filter_sublist db.saleItems))
            hInv.itemNodup
        have h2 : ((db.saleItems.filter fun s => s.productId == pid).map
            (fun s => if s.id = siId then min r (allocTotal db siId) else 0)).sum
            = if pid = si.productId then min r (allocTotal db siId) else 0 := by
          rw [sum_map_if_eq_key _ SaleItem.id siId _ hnodupf]
          have hiff : (siId ∈ (db.saleItems.filter
              fun s => s.productId == pid).map SaleItem.id) ↔ pid = si.productId := by
            constructor
            · intro hm2
              simp only [List.mem_map] at hm2
              obtain ⟨s, hsf, hse⟩ := hm2
              have hsm := (List.mem_filter.1 hsf).1
              have hsp : s.productId = pid := by
                simpa using (List.mem_filter.1 hsf).2
              have hss : s = si :=
                List.inj_on_of_nodup_map hInv.itemNodup hsm hsimem (by omega)
              rw [← hsp, hss]
            · intro hc
              exact List.mem_map.2 ⟨si,
                List.mem_filter.2 ⟨hsimem, by simpa using hc.symm⟩, hsiid⟩
          by_cases hc : pid = si.productId
          · rw [if_pos (hiff.2 hc), if_pos hc]
          · rw [if_neg (fun hmem => hc (hiff.1 hmem)), if_neg hc]
        rw [h1, h2]
      rw [consAt] at h ⊢
      rw [honh, hallo, hrest]
      omega

/-- The checkout loop preserves the conservation bookkeeping. -/
theorem cons_saleFold (sid : Nat) :
    ∀ (cart : List CartLine) (acc : DB) (ops : List Op) (pid : Nat),
      Inv acc → consAt ops acc pid → (∀ l ∈ cart, 0 < l.qty) →
      consAt ops (cart.foldl (saleLineStep sid) acc) pid
  | [], _, _, _, _, h, _ => h
  | l :: rest, acc, ops, pid, hInv, h, hc => by
    rw [List.foldl_cons]
    exact cons_saleFold sid rest _ ops pid
      (inv_saleLineStep sid acc l hInv (hc l (by simp)))
      (cons_saleLineStep sid acc l hInv ops pid h)
      (fun x hx => hc x (by simp [hx]))

/-- `checkout` preserves the conservation bookkeeping. -/
theorem cons_checkout (db : DB) (cart : List CartLine) (hInv : Inv db)
    (hcart : ∀ l ∈ cart, 0 < l.qty) (ops : List Op) (pid : Nat)
    (h : consAt ops db pid) : consAt ops (checkout db cart) pid := by
  rw [checkout]
  by_cases he : cart.isEmpty
  · rw [if_pos he]
    exact h
  · rw [if_neg he]
    exact cons_saleFold db.nextSaleId cart _ ops pid
      (inv_saleHeader db db.nextSaleId _ hInv) h hcart

/-- Appending a non-intake operation does not change the intake sum. -/
theorem cons_extend (ops : List Op) (db : DB) (op : Op) (pid : Nat)
    (hz : intakeSum [op] pid = 0) (h : consAt ops db pid) :
    consAt (ops ++ [op]) db pid := by
  rw [consAt, intakeSum_append, hz, add_zero]
  exact h

/-- One `mainproject.py` operation preserves the conservation
bookkeeping. -/
theorem cons_applyOp (db : DB) (op : Op) (ops : List Op) (pid : Nat) (hInv : Inv db)
    (hmain : isMainOp op = true) (h : consAt ops db pid) :
    consAt (ops ++ [op]) (applyOp db op) pid := by
  cases op with
  | intake pid0 no q c t => exact cons_addItem db pid0 no q c t ops pid h
  | sale lines =>
    exact cons_checkout db _ hInv (cart_pos lines [] (by intro l hl; simp at hl))
      _ pid (cons_extend ops db _ pid rfl h)
  | retMain siId q =>
    exact cons_processReturnMain db siId q hInv _ pid (cons_extend ops db _ pid rfl h)
  | retV3 siId q t => exact absurd hmain (by simp [isMainOp])

theorem cons_runFold :
    ∀ (ops2 : List Op) (db : DB) (ops1 : List Op),
      Inv db → (∀ pid, consAt ops1 db pid) → (∀ op ∈ ops2, isMainOp op = true) →
      ∀ pid, consAt (ops1 ++ ops2) (ops2.foldl applyOp db) pid
  | [], db, ops1, _, h, _ => by simpa using h
  | op :: rest, db, ops1, hInv, h, hm => by
    intro pid
    rw [List.foldl_cons]
    have h2 := cons_runFold rest (applyOp db op) (ops1 ++ [op])
      (inv_applyOp db op hInv)
      (fun pid' => cons_applyOp db op ops1 pid' hInv (hm op (by simp)) (h pid'))
      (fun o ho => hm o (by simp [ho])) pid
    rw [List.append_assoc] at h2
    simpa using h2

/-- The conservation bookkeeping holds for every run of
`mainproject.py` operations. -/
theorem cons_runOps (ops : List Op) (hm : ∀ op ∈ ops, isMainOp op = true)
    (pid : Nat) : consAt ops (runOps ops) pid := by
  have h0 : ∀ pid', consAt [] emptyDB pid' := by
    intro pid'
    rw [consAt]
    rfl
  have := cons_runFold ops emptyDB [] inv_empty h0 hm pid
  simpa using this

/-- An element of a list of positive integers is at most the list
sum. -/
theorem le_sum_of_mem_pos :
    ∀ (l : List Int), (∀ x ∈ l, 0 < x) → ∀ x ∈ l, x ≤ l.sum := by
  intro l
  induction l with
  | nil => simp
  | cons a rest ih =>
    intro hpos x hx
    have hrest : (0 : Int) ≤ rest.sum :=
      List.sum_nonneg fun y hy => le_of_lt (hpos y (by simp [hy]))
    rw [List.sum_cons]
    rcases List.mem_cons.1 hx with he | hm
    · subst he
      omega
    · have := ih (fun y hy => hpos y (by simp [hy])) x hm
      have := hpos a (by simp)
      omega

/-- C5 (amended): for every run of the `mainproject.py` operations in
which every sale item was fully allocated (its allocation rows total
its original quantity = stored quantity plus returns — i.e. no sale
line was ever short), on-hand stock per product equals accepted
intakes minus the original (pre-return) sold quantities plus the
returned quantities. -/
theorem conservation_amended (ops : List Op)
    (hmain : ∀ op ∈ ops, isMainOp op = true)
    (hfull : ∀ si ∈ (runOps ops).saleItems,
        allocTotal (runOps ops) si.id = si.quantity + retTotal (runOps ops) si.id)
    (pid : Nat) :
    onHand (runOps ops) pid
      = intakeSum ops pid
        - (((runOps ops).saleItems.filter fun si => si.productId == pid).map
            (fun si => si.quantity + retTotal (runOps ops) si.id)).sum
        + (((runOps ops).saleItems.filter fun si => si.productId == pid).map
            (fun si => retTotal (runOps ops) si.id)).sum := by
  have hc := cons_runOps ops hmain pid
  have hInv := inv_runOps ops
  rw [consAt] at hc
  rw [hc]
  have h1 : itemAllocSum (runOps ops) pid
      = (((runOps ops).saleItems.filter fun si => si.productId == pid).map
          (fun si => si.quantity + retTotal (runOps ops) si.id)).sum := by
    rw [itemAllocSum]
    refine congrArg List.sum (List.map_congr_left ?_)
    intro si hsi
    exact hfull si (List.mem_filter.1 hsi).1
  have h2 : itemRestockSum (runOps ops) pid
      = (((runOps ops).saleItems.filter fun si => si.productId == pid).map
          (fun si => retTotal (runOps ops) si.id)).sum := by
    rw [itemRestockSum]
    refine congrArg List.sum (List.map_congr_left ?_)
    intro si hsi
    have hsim := (List.mem_filter.1 hsi).1
    have hA := hfull si hsim
    have hqnn := hInv.itemNonneg si hsim
    have hcong : ∀ rr ∈ (runOps ops).returns.filter
        (fun rr => rr.saleItemId == si.id),
        min rr.quantity (allocTotal (runOps ops) si.id) = rr.quantity := by
      intro rr hrr
      have hrq : rr.quantity
          ∈ ((runOps ops).returns.filter
              (fun rr => rr.saleItemId == si.id)).map (·.quantity) :=
        List.mem_map_of_mem _ hrr
      have hle : rr.quantity ≤ retTotal (runOps ops) si.id :=
        le_sum_of_mem_pos _
          (fun x hx => by
            simp only [List.mem_map] at hx
            obtain ⟨rr0, hrr0, he⟩ := hx
            exact he ▸ hInv.retPos rr0 (List.mem_filter.1 hrr0).1)
          rr.quantity hrq
      rw [hA]
      omega
    calc ((((runOps ops).returns.filter fun rr => rr.saleItemId == si.id).map
        (fun rr => min rr.quantity (allocTotal (runOps ops) si.id))).sum)
        = ((((runOps ops).returns.filter fun rr => rr.saleItemId == si.id).map
            (fun rr => rr.quantity)).sum) :=
          congrArg List.sum (List.map_congr_left hcong)
      _ = retTotal (runOps ops) si.id := rfl
  rw [h1, h2]

/-- Witness for C5's amended theorem: intake 10, sell 4, return 1 —
no shortage, so the hypothesis holds and on-hand 7 = 10 − 4 + 1. -/
theorem conservation_amended_witness :
    (∀ op ∈ [Op.intake 1 "L1" 10 10 1, Op.sale [⟨1, 4, 3⟩], Op.retMain 1 1],
        isMainOp op = true)
    ∧ (∀ si ∈ (runOps [.intake 1 "L1" 10 10 1, .sale [⟨1, 4, 3⟩],
          .retMain 1 1]).saleItems,
        allocTotal (runOps [.intake 1 "L1" 10 10 1, .sale [⟨1, 4, 3⟩],
            .retMain 1 1]) si.id
          = si.quantity + retTotal (runOps [.intake 1 "L1" 10 10 1,
              .sale [⟨1, 4, 3⟩], .retMain 1 1]) si.id)
    ∧ onHand (runOps [.intake 1 "L1" 10 10 1, .sale [⟨1, 4, 3⟩], .retMain 1 1]) 1
      = intakeSum [.intake 1 "L1" 10 10 1, .sale [⟨1, 4, 3⟩], .retMain 1 1] 1
        - (((runOps [.intake 1 "L1" 10 10 1, .sale [⟨1, 4, 3⟩],
              .retMain 1 1]).saleItems.filter fun si => si.productId == 1).map
            (fun si => si.quantity + retTotal (runOps [.intake 1 "L1" 10 10 1,
                .sale [⟨1, 4, 3⟩], .retMain 1 1]) si.id)).sum
        + (((runOps [.intake 1 "L1" 10 10 1, .sale [⟨1, 4, 3⟩],
              .retMain 1 1]).saleItems.filter fun si => si.productId == 1).map
            (fun si => retTotal (runOps [.intake 1 "L1" 10 10 1,
                .sale [⟨1, 4, 3⟩], .retMain 1 1]) si.id)).sum :=
  ⟨by decide, by decide,
    conservation_amended [.intake 1 "L1" 10 10 1, .sale [⟨1, 4, 3⟩], .retMain 1 1]
      (by decide) (by decide) 1⟩

end PharmacyPos
